import Mathlib

/-!
Verification of the name-extraction pipeline of this repository
(src/yardat.pyt/extract_names.py and src/yardat.pyt/extract_names_simple.py)
against its natural-language specification.

The Python code is shallowly embedded: strings are `String`/`List Char`,
every function is a computable Lean definition translated line by line from
the source.  External collaborators (the PDF reader `read_pdf` and the spaCy
call `extract_entities`) are not part of the pipeline core: the pipeline is
modelled on the list of page text blocks that `read_pdf` returns, and the
model-based candidate generator is a function parameter, exactly as the spec
treats them ("excluded as external collaborators").

Python semantics captured here:
  - the regex class `\s` is modelled on its ASCII fragment
    (space, tab, newline, carriage return, vertical tab, form feed);
  - `str.isupper` / `str.islower` / `str.isalpha` are modelled on ASCII;
  - `str.split()` splits on runs of whitespace and never yields an empty
    token; `str.strip()` removes leading and trailing whitespace;
  - `re.sub(r'\s+', ' ', s)` collapses every whitespace run to one space;
  - Python's `sorted` on strings is the lexicographic order on code points;
    on a duplicate-free list (the pipeline sorts right after `unique`) every
    correct sort agrees, so a concrete insertion sort is a faithful model.
-/

/-- Characters matched by the regex class `\s` (ASCII fragment). -/
def isSpacePy (c : Char) : Bool :=
  c == ' ' || c == '\t' || c == '\n' || c == '\x0d' || c == '\x0b' || c == '\x0c'

/-- Characters matched by the regex class `\w` (ASCII fragment):
letters, digits and underscore.  Used for word boundaries. -/
def isWordChar (c : Char) : Bool :=
  c.isAlpha || c.isDigit || c == '_'

/-- Tokenizer underlying Python's `str.split()`: accumulates the current
token (reversed) and emits it at each whitespace run. -/
def splitPyAux : List Char → List Char → List (List Char)
  | [], acc => if acc.isEmpty then [] else [acc.reverse]
  | c :: rest, acc =>
    if isSpacePy c then
      if acc.isEmpty then splitPyAux rest [] else acc.reverse :: splitPyAux rest []
    else
      splitPyAux rest (c :: acc)

/-- Python's `str.split()` (no separator argument): maximal runs of
non-whitespace characters. -/
def splitPy (cs : List Char) : List (List Char) := splitPyAux cs []

/-- Removal of trailing whitespace (the right half of `str.strip()`). -/
def dropTrailWs (cs : List Char) : List Char :=
  (cs.reverse.dropWhile isSpacePy).reverse

/-- Python's `str.strip()`: remove leading and trailing whitespace. -/
def stripWs (cs : List Char) : List Char :=
  (dropTrailWs cs).dropWhile isSpacePy

/-- One pass of whitespace-run collapsing; the flag records whether the
previous character belonged to a whitespace run already emitted as ' '. -/
def collapseAux : List Char → Bool → List Char
  | [], _ => []
  | c :: rest, prevSpace =>
    if isSpacePy c then
      if prevSpace then collapseAux rest true
      else ' ' :: collapseAux rest true
    else
      c :: collapseAux rest false

/-- Model of `re.sub(r'\s+', ' ', name.strip())`: strip, then collapse every
whitespace run to a single space (source: clean_name, first step). -/
def collapse (cs : List Char) : List Char := collapseAux (stripWs cs) false

/-- Well-formedness of whitespace inside a collapsed string: every
whitespace character is the single space ' ' and is followed by some
non-whitespace character (so there are no double spaces and no trailing
whitespace). -/
def collOk : List Char → Bool
  | [] => true
  | c :: rest =>
    if isSpacePy c then
      (c == ' ') &&
        (match rest with | [] => false | d :: _ => !isSpacePy d) &&
        collOk rest
    else collOk rest

/-- Absence of trailing whitespace. -/
def noTrailSpace (cs : List Char) : Bool :=
  match cs.getLast? with
  | none => true
  | some z => !isSpacePy z

/-- A string is collapsed when it has no leading whitespace and `collOk`
holds; `collapse` always produces such strings and is the identity on
them. -/
def isCollapsedB (cs : List Char) : Bool :=
  (match cs with | [] => true | c :: _ => !isSpacePy c) && collOk cs

/-- Honorifics of the regex `^(Mr\.|Mrs\.|Ms\.|Dr\.|Prof\.|Sir|Dame|Lord|Lady)\s+`
in alternation order (identical in both source files). -/
def honorificsList : List (List Char) :=
  [['M','r','.'], ['M','r','s','.'], ['M','s','.'], ['D','r','.'],
   ['P','r','o','f','.'], ['S','i','r'], ['D','a','m','e'], ['L','o','r','d'],
   ['L','a','d','y']]

/-- Suffixes of the regex `\s+(Jr\.|Sr\.|III|II|IV|PhD|MD|Esq\.)$`
in alternation order. -/
def suffixesList : List (List Char) :=
  [['J','r','.'], ['S','r','.'], ['I','I','I'], ['I','I'], ['I','V'],
   ['P','h','D'], ['M','D'], ['E','s','q','.']]

/-- Case-insensitive comparison (re.IGNORECASE on ASCII). -/
def lowerEq (a b : List Char) : Bool :=
  a.map Char.toLower == b.map Char.toLower

/-- Test that the honorific `pre` matches case-insensitively at the start of
`cs` and is followed by at least one whitespace character, as required by
the anchored regex `^(pre)\s+`. -/
def ciPreSpace (pre cs : List Char) : Bool :=
  lowerEq (cs.take pre.length) pre &&
    (match cs.drop pre.length with
     | c :: _ => isSpacePy c
     | [] => false)

/-- Model of `re.sub(titles, '', name, flags=re.IGNORECASE)` with
`titles = r'^(Mr\.|Mrs\.|Ms\.|Dr\.|Prof\.|Sir|Dame|Lord|Lady)\s+'`:
if some honorific matches at the start (first in alternation order) and is
followed by whitespace, remove it together with the following whitespace. -/
def stripTitle (cs : List Char) : List Char :=
  match honorificsList.find? (fun h => ciPreSpace h cs) with
  | some h => (cs.drop h.length).dropWhile isSpacePy
  | none => cs

/-- Model of `re.sub(suffixes, '', name, flags=re.IGNORECASE)` with
`suffixes = r'\s+(Jr\.|Sr\.|III|II|IV|PhD|MD|Esq\.)$'`: the match, if any,
is the trailing whitespace run together with the final token, provided that
final token equals one of the suffixes case-insensitively. -/
def stripSuffixFn (cs : List Char) : List Char :=
  let r := cs.reverse
  let tokR := r.takeWhile (fun c => !isSpacePy c)
  let r1 := r.dropWhile (fun c => !isSpacePy c)
  let ws := r1.takeWhile isSpacePy
  let r2 := r1.dropWhile isSpacePy
  if !ws.isEmpty && suffixesList.any (fun suf => lowerEq tokR.reverse suf) then
    r2.reverse
  else
    cs

/-- Source: clean_name (identical in extract_names.py lines 36-45 and
extract_names_simple.py lines 37-46).  Collapse whitespace, strip one
leading honorific, strip one trailing suffix. -/
def clean_name (name : String) : String :=
  ⟨stripSuffixFn (stripTitle (collapse name.data))⟩

namespace ExtractNames

/-- Python's `str.isupper` on ASCII: at least one cased character and no
lowercase cased character. -/
def isupperPy (cs : List Char) : Bool :=
  cs.any Char.isAlpha && !cs.any Char.isLower

/-- Python's `str.islower` on ASCII: at least one cased character and no
uppercase cased character. -/
def islowerPy (cs : List Char) : Bool :=
  cs.any Char.isAlpha && !cs.any Char.isUpper

/-- Characters of the regex class `[0-9@#$%^&*()_+=\[\]{};:"<>?/\\|]` used by
the loose validator (extract_names.py line 60). -/
def isBadCharLoose (c : Char) : Bool :=
  c.isDigit ||
    (c == '@' || c == '#' || c == '$' || c == '%' || c == '^' || c == '&' ||
     c == '*' || c == '(' || c == ')' || c == '_' || c == '+' || c == '=' ||
     c == '[' || c == ']' || c == '\x7b' || c == '\x7d' || c == ';' ||
     c == ':' || c == '"' || c == '<' || c == '>' || c == '?' || c == '/' ||
     c == '\\' || c == '|')

/-- Source: is_valid_name, extract_names.py lines 48-62 (the loose profile). -/
def is_valid_name (name : String) : Bool :=
  if name.data.length < 2 then false
  else if !name.data.any (fun c => c == ' ') then false
  else if isupperPy name.data || islowerPy name.data then false
  else if name.data.any isBadCharLoose then false
  else true

end ExtractNames

namespace ExtractNamesSimple

/-- Hardcoded false-positive phrases of extract_names_simple.py lines 70-84. -/
def false_positives : List String :=
  ["United States", "New York", "Los Angeles", "San Francisco",
   "White House", "Supreme Court", "Wall Street", "Main Street",
   "World War", "Cold War", "Civil War", "Great Depression",
   "Federal Reserve", "State Department", "Defense Department",
   "Harvard University", "Yale University", "Stanford University",
   "Oxford University", "Cambridge University",
   "The New", "New York Times", "Washington Post", "Associated Press",
   "Republican Party", "Democratic Party", "Green Party",
   "Middle East", "Far East", "Western Europe", "Eastern Europe",
   "North America", "South America", "Central America",
   "Chapter One", "Chapter Two", "Part One", "Part Two",
   "First World", "Second World", "Third World",
   "Old Testament", "New Testament"]

/-- Hardcoded common-word set of extract_names_simple.py line 90. -/
def common_words : List String :=
  ["The", "And", "But", "For", "With", "From", "Into", "About"]

/-- One iteration of the generator expression
`all(part[0].isupper() for part in parts if part and part[0].isalpha())`:
an empty part is skipped by the guard, a part whose first character is not
alphabetic is skipped, otherwise the first character must be uppercase. -/
def partHeadOk : List Char → Bool
  | [] => true
  | c :: _ => if c.isAlpha then c.isUpper else true

/-- Source: is_valid_name, extract_names_simple.py lines 49-95 (the strict
profile), with the checks in source order. -/
def is_valid_name (name : String) : Bool :=
  if name.data.length < 3 then false
  else if !name.data.any (fun c => c == ' ') then false
  else
    let parts := splitPy name.data
    if parts.length < 2 || parts.length > 4 then false
    else if !parts.all partHeadOk then false
    else if false_positives.contains name then false
    else if parts.all (fun p => common_words.any (fun w => w.data == p)) then false
    else true

/-- Matcher for `[A-Z][a-z]+` with the maximal run of lowercase letters
(the regex engine cannot profitably backtrack here, because every
continuation of both source patterns rejects a lowercase letter). -/
def matchWord : List Char → Option (List Char × List Char)
  | [] => none
  | c :: rest =>
    if c.isUpper then
      let ls := rest.takeWhile Char.isLower
      if ls.isEmpty then none
      else some (c :: ls, rest.dropWhile Char.isLower)
    else none

/-- Matcher for the middle-initial group `\s+[A-Z]\.?`: maximal whitespace
run, one capital, and the period taken greedily (skipping a present period
can never help, since the continuation requires whitespace next). -/
def matchIni (cs : List Char) : Option ((List Char × List Char) × List Char) :=
  let sp := cs.takeWhile isSpacePy
  if sp.isEmpty then none
  else
    match cs.dropWhile isSpacePy with
    | [] => none
    | c :: rest =>
      if c.isUpper then
        match rest with
        | '.' :: rest2 => some ((sp, [c, '.']), rest2)
        | _ => some ((sp, [c]), rest)
      else none

/-- Matcher for one repetition `\s+[A-Z][a-z]+`. -/
def matchRep (cs : List Char) : Option ((List Char × List Char) × List Char) :=
  let sp := cs.takeWhile isSpacePy
  if sp.isEmpty then none
  else
    match matchWord (cs.dropWhile isSpacePy) with
    | none => none
    | some (w, rest) => some ((sp, w), rest)

/-- Greedy matcher for `(\s+[A-Z][a-z]+)*`, collecting the (whitespace,
word) pairs; fuelled structural recursion (each repetition consumes at
least two characters, so any fuel above the length is enough). -/
def matchReps : Nat → List Char → List (List Char × List Char) × List Char
  | 0, cs => ([], cs)
  | fuel+1, cs =>
    match matchRep cs with
    | none => ([], cs)
    | some (pr, rest) =>
      let (more, rest2) := matchReps fuel rest
      (pr :: more, rest2)

/-- Word-boundary test after a match ending in a word character: the next
character must be absent or a non-word character. -/
def bOk : List Char → Bool
  | [] => true
  | c :: _ => !isWordChar c

/-- Matcher for `(\s+[A-Z][a-z]+)+\b`: take the greedy repetitions; if the
trailing boundary fails (next character is a word character), the engine
backs off exactly one whole repetition, after which the boundary sits
before that repetition's whitespace and always holds; at least one
repetition must remain. -/
def matchRepsB (cs : List Char) : Option (List (List Char × List Char) × List Char) :=
  let (rs, rest) := matchReps (cs.length + 1) cs
  if rs.isEmpty then none
  else if bOk rest then some (rs, rest)
  else
    match rs.getLast? with
    | none => none
    | some lastP =>
      match rs.dropLast with
      | [] => none
      | rs' => some (rs', lastP.1 ++ lastP.2 ++ rest)

/-- Structured form of one match of the capture group
`[A-Z][a-z]+(?:\s+[A-Z]\.?)?(?:\s+[A-Z][a-z]+)+`: leading title word,
optional middle initial with its separating whitespace, and the
remaining (whitespace, word) repetitions. -/
structure NameMatch where
  t1 : List Char
  ini : Option (List Char × List Char)
  reps : List (List Char × List Char)

/-- Characters consumed by the repetition part of a match. -/
def renderReps (rs : List (List Char × List Char)) : List Char :=
  (rs.map (fun p => p.1 ++ p.2)).flatten

/-- Characters of the whole capture group, exactly as they occur in the
scanned text. -/
def render (nm : NameMatch) : List Char :=
  nm.t1 ++ (match nm.ini with | none => [] | some (s, t) => s ++ t) ++
    renderReps nm.reps

/-- Matcher for the full capture group at the current position: the greedy
engine first tries to use the optional initial group and falls back to
skipping it. -/
def matchName (cs : List Char) : Option (NameMatch × List Char) :=
  match matchWord cs with
  | none => none
  | some (t1, rest1) =>
    match
      (match matchIni rest1 with
       | none => none
       | some ((sp, tok), rest2) =>
         match matchRepsB rest2 with
         | none => none
         | some (rs, rest3) => some ((⟨t1, some (sp, tok), rs⟩ : NameMatch), rest3))
    with
    | some r => some r
    | none =>
      match matchRepsB rest1 with
      | none => none
      | some (rs, rest3) => some ((⟨t1, none, rs⟩ : NameMatch), rest3)

/-- Scanner for `re.findall(name_pattern, text)`: try the pattern at every
position whose preceding character is not a word character (the leading
`\b`, since the match must start with a capital); on success continue
after the match, otherwise advance one character. -/
def scanName : Nat → Bool → List Char → List (List Char)
  | 0, _, _ => []
  | _, _, [] => []
  | fuel+1, prevW, c :: rest =>
    if prevW then scanName fuel (isWordChar c) rest
    else
      match matchName (c :: rest) with
      | some (nm, rest') => render nm :: scanName fuel true rest'
      | none => scanName fuel (isWordChar c) rest

/-- Matcher for the title pattern at the current position: one honorific
literal (case-sensitive; no honorific is a prefix of another, so the
alternation is deterministic), mandatory whitespace, then the same capture
group; returns the group only, as `re.findall` does. -/
def matchTitleName (cs : List Char) : Option (List Char × List Char) :=
  match honorificsList.find? (fun h => h.isPrefixOf cs) with
  | none => none
  | some h =>
    let cs2 := cs.drop h.length
    if (cs2.takeWhile isSpacePy).isEmpty then none
    else
      match matchName (cs2.dropWhile isSpacePy) with
      | some (nm, rest) => some (render nm, rest)
      | none => none

/-- Scanner for `re.findall(title_pattern, text)`. -/
def scanTitle : Nat → Bool → List Char → List (List Char)
  | 0, _, _ => []
  | _, _, [] => []
  | fuel+1, prevW, c :: rest =>
    if prevW then scanTitle fuel (isWordChar c) rest
    else
      match matchTitleName (c :: rest) with
      | some (g, rest') => g :: scanTitle fuel true rest'
      | none => scanTitle fuel (isWordChar c) rest

/-- Title-case token shape of the spec: one uppercase letter followed by
one or more lowercase letters (the shape of `[A-Z][a-z]+`). -/
def isTitleTok : List Char → Bool
  | [] => false
  | c :: rest => c.isUpper && !rest.isEmpty && rest.all Char.isLower

/-- Middle-initial token shape: a single uppercase letter with an optional
trailing period (the shape of `[A-Z]\.?`). -/
def isIniTok : List Char → Bool
  | [c] => c.isUpper
  | [c, p] => c.isUpper && p == '.'
  | _ => false

/-- Nonempty all-whitespace separator, the shape of one `\s+` match. -/
def spAll (sp : List Char) : Bool := !sp.isEmpty && sp.all isSpacePy

/-- Shape of one repetition of the name pattern. -/
def repOk (p : List Char × List Char) : Bool := spAll p.1 && isTitleTok p.2

/-- Shape invariant of every successful match of the capture group. -/
def nmOk (nm : NameMatch) : Bool :=
  isTitleTok nm.t1 &&
    (match nm.ini with
     | none => true
     | some (s, tok) => spAll s && isIniTok tok) &&
    !nm.reps.isEmpty && nm.reps.all repOk

/-- Token list of a structured match: leading word, optional initial,
repetition words. -/
def tokList (nm : NameMatch) : List (List Char) :=
  nm.t1 ::
    ((match nm.ini with
      | none => []
      | some (_, tok) => [tok]) ++ nm.reps.map Prod.snd)

/-- Source: extract_potential_names, extract_names_simple.py lines 21-34:
`re.findall(name_pattern, text) + re.findall(title_pattern, text)`. -/
def extract_potential_names (text : String) : List String :=
  (scanName (text.data.length + 1) false text.data).map (fun l => (⟨l⟩ : String)) ++
    (scanTitle (text.data.length + 1) false text.data).map (fun l => (⟨l⟩ : String))

/-- Variant of the per-part check where the indexing operation `part[0]` is
the fallible `List.head?`, mirroring that Python raises IndexError on an
empty string; the guard `if part` is evaluated before the index, exactly as
in the source. -/
def partCheckOpt : List (List Char) → Option Bool
  | [] => some true
  | p :: ps =>
    if p.isEmpty then partCheckOpt ps
    else
      match p.head? with
      | none => none
      | some c =>
        if c.isAlpha then
          match p.head? with
          | none => none
          | some c2 => (partCheckOpt ps).map (fun b => c2.isUpper && b)
        else partCheckOpt ps

/-- Strict validator with every `part[0]` access made explicit as a fallible
operation; returns none if any index would be out of bounds. -/
def is_valid_nameOpt (name : String) : Option Bool :=
  if name.data.length < 3 then some false
  else if !name.data.any (fun c => c == ' ') then some false
  else
    let parts := splitPy name.data
    if parts.length < 2 || parts.length > 4 then some false
    else
      match partCheckOpt parts with
      | none => none
      | some ok =>
        if !ok then some false
        else if false_positives.contains name then some false
        else if parts.all (fun p => common_words.any (fun w => w.data == p)) then some false
        else some true

end ExtractNamesSimple

/-- Helper for `unique`: keep each element whose value has not been seen
before, in order of first occurrence (Python's `list(dict.fromkeys(lst))`,
extract_names.py line 67 and extract_names_simple.py line 101). -/
def uniqueAux : List String → List String → List String
  | _, [] => []
  | seen, x :: xs =>
    if x ∈ seen then uniqueAux seen xs else x :: uniqueAux (x :: seen) xs

/-- Order-preserving deduplication under exact (case-sensitive) string
equality, as `dict.fromkeys` performs. -/
def unique (l : List String) : List String := uniqueAux [] l

/-- Lexicographic comparison of character code points, which is exactly how
Python's `sorted` compares strings. -/
def listLe : List Char → List Char → Bool
  | [], _ => true
  | _ :: _, [] => false
  | a :: as, b :: bs =>
    if a.toNat < b.toNat then true
    else if b.toNat < a.toNat then false
    else listLe as bs

/-- String comparison used by the final `sorted` stage. -/
def strLeB (a b : String) : Bool := listLe a.data b.data

/-- The comparison as a relation, for use with `List.insertionSort`. -/
def rStr : String → String → Prop := fun a b => strLeB a b = true

instance : DecidableRel rStr := fun a b => inferInstanceAs (Decidable (strLeB a b = true))

/-- Main functional pipeline shared by both source files
(extract_names.py lines 71-84, extract_names_simple.py lines 104-117):
generate candidates per block, flatten, clean, filter by the validator,
deduplicate preserving first occurrence, and sort.  The text blocks are the
pages returned by the external collaborator `read_pdf`, and the candidate
generator and validator are the points where the two variants differ.
Python's Timsort and this insertion sort agree on every list of distinct
strings, and `unique` always hands the sort a list of distinct strings. -/
def pipeline (gen : String → List String) (valid : String → Bool)
    (blocks : List String) : List String :=
  List.insertionSort rStr
    (unique ((((blocks.map gen).flatten).map clean_name).filter valid))

/-- Source: extract_names_from_pdf, extract_names_simple.py lines 98-117,
on the page texts delivered by `read_pdf` (an excluded external
collaborator, so the pipeline is modelled from the block list on). -/
def ExtractNamesSimple.extract_names_from_pdf (blocks : List String) : List String :=
  pipeline ExtractNamesSimple.extract_potential_names ExtractNamesSimple.is_valid_name blocks

/-- Source: extract_names_from_pdf, extract_names.py lines 65-84.  The
candidate generator `extract_entities` delegates to the external spaCy
model, an excluded collaborator; it is therefore a parameter here, exactly
as the spec treats the model strategy ("a pluggable capability"). -/
def ExtractNames.extract_names_from_pdf (extract_entities : String → List String)
    (blocks : List String) : List String :=
  pipeline extract_entities ExtractNames.is_valid_name blocks

/-! Helper lemmas shared by several claim proofs. -/

/-- Dropping while a predicate holds ignores a leading block on which the
predicate holds everywhere. -/
theorem dropWhile_append_of_all (p : Char → Bool) (sp t : List Char)
    (h : ∀ c ∈ sp, p c = true) : (sp ++ t).dropWhile p = t.dropWhile p := by
  induction sp with
  | nil => rfl
  | cons c cs ih =>
    rw [List.cons_append, List.dropWhile_cons, if_pos (h c (by simp))]
    exact ih (fun d hd => h d (by simp [hd]))

/-- A case-insensitive variant of an honorific followed by whitespace makes
`ciPreSpace` succeed. -/
theorem ciPreSpace_self (h v sp t : List Char)
    (hv : v.map Char.toLower = h.map Char.toLower)
    (hsp : sp ≠ []) (hspc : ∀ c ∈ sp, isSpacePy c = true) :
    ciPreSpace h (v ++ (sp ++ t)) = true := by
  have hlen : v.length = h.length := by simpa using congrArg List.length hv
  unfold ciPreSpace lowerEq
  have h1 : (v ++ (sp ++ t)).take h.length = v := by
    rw [← hlen]; exact List.take_left v _
  have h2 : (v ++ (sp ++ t)).drop h.length = sp ++ t := by
    rw [← hlen]; exact List.drop_left v _
  rw [h1, h2, hv]
  cases sp with
  | nil => exact absurd rfl hsp
  | cons c sp2 =>
    simp only [List.cons_append]
    simp [hspc c (by simp)]

/-- Refutation helper: if the lower-cased text disagrees with the
lower-cased honorific somewhere in the first k characters, the honorific
does not match. -/
theorem ciPreSpace_ne (hj v rest : List Char) (k : Nat)
    (hkv : k ≤ v.length) (hkj : k ≤ hj.length)
    (hne : (v.map Char.toLower).take k ≠ (hj.map Char.toLower).take k) :
    ciPreSpace hj (v ++ rest) = false := by
  unfold ciPreSpace lowerEq
  cases hbeq : (((v ++ rest).take hj.length).map Char.toLower == hj.map Char.toLower) with
  | false => rfl
  | true =>
    exfalso
    apply hne
    have heq : ((v ++ rest).take hj.length).map Char.toLower = hj.map Char.toLower := by
      simpa using hbeq
    have h3 := congrArg (List.take k) heq
    have e1 : ((v ++ rest).take hj.length).take k = v.take k := by
      rw [List.take_take, Nat.min_eq_left hkj, List.take_append_of_le_length hkv]
    rw [← List.map_take, e1, List.map_take] at h3
    exact h3

/-! Claim C1. -/

/-- C1 counterexample: the claim says both validator profiles reject every
string containing a digit, but the strict validator (is_valid_name of
extract_names_simple.py) has no character-class rule at all and accepts
"Jane5 Smith", which contains the digit 5. -/
theorem C1_counterexample :
    ExtractNamesSimple.is_valid_name "Jane5 Smith" = true ∧
      '5' ∈ ("Jane5 Smith" : String).data := by
  constructor <;> decide

/-- C1 amended: only the loose validator (is_valid_name of
extract_names.py) has a character rule, and it rejects exactly the digits
and the listed special characters of its regex class; any string containing
one of those characters is rejected by the loose profile. -/
theorem C1_amended_loose_char_rejection (s : String) (c : Char)
    (hc : c ∈ s.data) (hbad : ExtractNames.isBadCharLoose c = true) :
    ExtractNames.is_valid_name s = false := by
  have hany : s.data.any ExtractNames.isBadCharLoose = true :=
    List.any_eq_true.mpr ⟨c, hc, hbad⟩
  simp [ExtractNames.is_valid_name, hany]

/-- C1 witness: the amended rejection theorem applied to "Jane5 Smith" and
its digit 5. -/
theorem C1_amended_loose_char_rejection_witness :
    ('5' ∈ ("Jane5 Smith" : String).data ∧
        ExtractNames.isBadCharLoose '5' = true) ∧
      ExtractNames.is_valid_name "Jane5 Smith" = false :=
  ⟨⟨by decide, by decide⟩,
    C1_amended_loose_char_rejection "Jane5 Smith" '5' (by decide) (by decide)⟩

/-! Claim C4. -/

/-- C4 counterexample: the claim says the trailing period of an honorific
is optional, but clean_name leaves "Dr Jane Smith" unchanged: the regex
alternative is the literal "Dr\." and does not match "Dr" without the
period, so no honorific is stripped. -/
theorem C4_counterexample :
    clean_name "Dr Jane Smith" = "Dr Jane Smith" ∧
      clean_name "Dr Jane Smith" ≠ "Jane Smith" := by
  constructor <;> decide

/-- C4 amended: the honorific-stripping step of clean_name removes a
leading honorific only when it is written exactly as in the configured
alternation (period included for the abbreviated forms, absent for
Sir/Dame/Lord/Lady), though matched case-insensitively; in that case the
token and all following whitespace are removed, and only that one token is
touched (the remainder is kept verbatim up to its leading whitespace). -/
theorem C4_amended_honorific_strip (h v sp t : List Char)
    (hh : h ∈ honorificsList)
    (hv : v.map Char.toLower = h.map Char.toLower)
    (hsp : sp ≠ []) (hspc : ∀ c ∈ sp, isSpacePy c = true) :
    stripTitle (v ++ (sp ++ t)) = t.dropWhile isSpacePy := by
  have hself : ciPreSpace h (v ++ (sp ++ t)) = true := ciPreSpace_self h v sp t hv hsp hspc
  have hlenv : v.length = h.length := by simpa using congrArg List.length hv
  have hfind : honorificsList.find? (fun h2 => ciPreSpace h2 (v ++ (sp ++ t))) = some h := by
    fin_cases hh
    · simp only [honorificsList, List.find?, hself]
    · have n0 : ciPreSpace ['M','r','.'] (v ++ (sp ++ t)) = false :=
        ciPreSpace_ne _ v _ 3 (by rw [hlenv]; decide) (by decide) (by rw [hv]; decide)
      simp only [honorificsList, List.find?, n0, hself]
    · have n0 : ciPreSpace ['M','r','.'] (v ++ (sp ++ t)) = false :=
        ciPreSpace_ne _ v _ 2 (by rw [hlenv]; decide) (by decide) (by rw [hv]; decide)
      have n1 : ciPreSpace ['M','r','s','.'] (v ++ (sp ++ t)) = false :=
        ciPreSpace_ne _ v _ 2 (by rw [hlenv]; decide) (by decide) (by rw [hv]; decide)
      simp only [honorificsList, List.find?, n0, n1, hself]
    · have n0 : ciPreSpace ['M','r','.'] (v ++ (sp ++ t)) = false :=
        ciPreSpace_ne _ v _ 1 (by rw [hlenv]; decide) (by decide) (by rw [hv]; decide)
      have n1 : ciPreSpace ['M','r','s','.'] (v ++ (sp ++ t)) = false :=
        ciPreSpace_ne _ v _ 1 (by rw [hlenv]; decide) (by decide) (by rw [hv]; decide)
      have n2 : ciPreSpace ['M','s','.'] (v ++ (sp ++ t)) = false :=
        ciPreSpace_ne _ v _ 1 (by rw [hlenv]; decide) (by decide) (by rw [hv]; decide)
      simp only [honorificsList, List.find?, n0, n1, n2, hself]
    · have n0 : ciPreSpace ['M','r','.'] (v ++ (sp ++ t)) = false :=
        ciPreSpace_ne _ v _ 1 (by rw [hlenv]; decide) (by decide) (by rw [hv]; decide)
      have n1 : ciPreSpace ['M','r','s','.'] (v ++ (sp ++ t)) = false :=
        ciPreSpace_ne _ v _ 1 (by rw [hlenv]; decide) (by decide) (by rw [hv]; decide)
      have n2 : ciPreSpace ['M','s','.'] (v ++ (sp ++ t)) = false :=
        ciPreSpace_ne _ v _ 1 (by rw [hlenv]; decide) (by decide) (by rw [hv]; decide)
      have n3 : ciPreSpace ['D','r','.'] (v ++ (sp ++ t)) = false :=
        ciPreSpace_ne _ v _ 1 (by rw [hlenv]; decide) (by decide) (by rw [hv]; decide)
      simp only [honorificsList, List.find?, n0, n1, n2, n3, hself]
    · have n0 : ciPreSpace ['M','r','.'] (v ++ (sp ++ t)) = false :=
        ciPreSpace_ne _ v _ 1 (by rw [hlenv]; decide) (by decide) (by rw [hv]; decide)
      have n1 : ciPreSpace ['M','r','s','.'] (v ++ (sp ++ t)) = false :=
        ciPreSpace_ne _ v _ 1 (by rw [hlenv]; decide) (by decide) (by rw [hv]; decide)
      have n2 : ciPreSpace ['M','s','.'] (v ++ (sp ++ t)) = false :=
        ciPreSpace_ne _ v _ 1 (by rw [hlenv]; decide) (by decide) (by rw [hv]; decide)
      have n3 : ciPreSpace ['D','r','.'] (v ++ (sp ++ t)) = false :=
        ciPreSpace_ne _ v _ 1 (by rw [hlenv]; decide) (by decide) (by rw [hv]; decide)
      have n4 : ciPreSpace ['P','r','o','f','.'] (v ++ (sp ++ t)) = false :=
        ciPreSpace_ne _ v _ 1 (by rw [hlenv]; decide) (by decide) (by rw [hv]; decide)
      simp only [honorificsList, List.find?, n0, n1, n2, n3, n4, hself]
    · have n0 : ciPreSpace ['M','r','.'] (v ++ (sp ++ t)) = false :=
        ciPreSpace_ne _ v _ 1 (by rw [hlenv]; decide) (by decide) (by rw [hv]; decide)
      have n1 : ciPreSpace ['M','r','s','.'] (v ++ (sp ++ t)) = false :=
        ciPreSpace_ne _ v _ 1 (by rw [hlenv]; decide) (by decide) (by rw [hv]; decide)
      have n2 : ciPreSpace ['M','s','.'] (v ++ (sp ++ t)) = false :=
        ciPreSpace_ne _ v _ 1 (by rw [hlenv]; decide) (by decide) (by rw [hv]; decide)
      have n3 : ciPreSpace ['D','r','.'] (v ++ (sp ++ t)) = false :=
        ciPreSpace_ne _ v _ 2 (by rw [hlenv]; decide) (by decide) (by rw [hv]; decide)
      have n4 : ciPreSpace ['P','r','o','f','.'] (v ++ (sp ++ t)) = false :=
        ciPreSpace_ne _ v _ 1 (by rw [hlenv]; decide) (by decide) (by rw [hv]; decide)
      have n5 : ciPreSpace ['S','i','r'] (v ++ (sp ++ t)) = false :=
        ciPreSpace_ne _ v _ 1 (by rw [hlenv]; decide) (by decide) (by rw [hv]; decide)
      simp only [honorificsList, List.find?, n0, n1, n2, n3, n4, n5, hself]
    · have n0 : ciPreSpace ['M','r','.'] (v ++ (sp ++ t)) = false :=
        ciPreSpace_ne _ v _ 1 (by rw [hlenv]; decide) (by decide) (by rw [hv]; decide)
      have n1 : ciPreSpace ['M','r','s','.'] (v ++ (sp ++ t)) = false :=
        ciPreSpace_ne _ v _ 1 (by rw [hlenv]; decide) (by decide) (by rw [hv]; decide)
      have n2 : ciPreSpace ['M','s','.'] (v ++ (sp ++ t)) = false :=
        ciPreSpace_ne _ v _ 1 (by rw [hlenv]; decide) (by decide) (by rw [hv]; decide)
      have n3 : ciPreSpace ['D','r','.'] (v ++ (sp ++ t)) = false :=
        ciPreSpace_ne _ v _ 1 (by rw [hlenv]; decide) (by decide) (by rw [hv]; decide)
      have n4 : ciPreSpace ['P','r','o','f','.'] (v ++ (sp ++ t)) = false :=
        ciPreSpace_ne _ v _ 1 (by rw [hlenv]; decide) (by decide) (by rw [hv]; decide)
      have n5 : ciPreSpace ['S','i','r'] (v ++ (sp ++ t)) = false :=
        ciPreSpace_ne _ v _ 1 (by rw [hlenv]; decide) (by decide) (by rw [hv]; decide)
      have n6 : ciPreSpace ['D','a','m','e'] (v ++ (sp ++ t)) = false :=
        ciPreSpace_ne _ v _ 1 (by rw [hlenv]; decide) (by decide) (by rw [hv]; decide)
      simp only [honorificsList, List.find?, n0, n1, n2, n3, n4, n5, n6, hself]
    · have n0 : ciPreSpace ['M','r','.'] (v ++ (sp ++ t)) = false :=
        ciPreSpace_ne _ v _ 1 (by rw [hlenv]; decide) (by decide) (by rw [hv]; decide)
      have n1 : ciPreSpace ['M','r','s','.'] (v ++ (sp ++ t)) = false :=
        ciPreSpace_ne _ v _ 1 (by rw [hlenv]; decide) (by decide) (by rw [hv]; decide)
      have n2 : ciPreSpace ['M','s','.'] (v ++ (sp ++ t)) = false :=
        ciPreSpace_ne _ v _ 1 (by rw [hlenv]; decide) (by decide) (by rw [hv]; decide)
      have n3 : ciPreSpace ['D','r','.'] (v ++ (sp ++ t)) = false :=
        ciPreSpace_ne _ v _ 1 (by rw [hlenv]; decide) (by decide) (by rw [hv]; decide)
      have n4 : ciPreSpace ['P','r','o','f','.'] (v ++ (sp ++ t)) = false :=
        ciPreSpace_ne _ v _ 1 (by rw [hlenv]; decide) (by decide) (by rw [hv]; decide)
      have n5 : ciPreSpace ['S','i','r'] (v ++ (sp ++ t)) = false :=
        ciPreSpace_ne _ v _ 1 (by rw [hlenv]; decide) (by decide) (by rw [hv]; decide)
      have n6 : ciPreSpace ['D','a','m','e'] (v ++ (sp ++ t)) = false :=
        ciPreSpace_ne _ v _ 1 (by rw [hlenv]; decide) (by decide) (by rw [hv]; decide)
      have n7 : ciPreSpace ['L','o','r','d'] (v ++ (sp ++ t)) = false :=
        ciPreSpace_ne _ v _ 2 (by rw [hlenv]; decide) (by decide) (by rw [hv]; decide)
      simp only [honorificsList, List.find?, n0, n1, n2, n3, n4, n5, n6, n7, hself]
  unfold stripTitle
  rw [hfind]
  show List.dropWhile isSpacePy ((v ++ (sp ++ t)).drop h.length) = _
  rw [← hlenv, List.drop_left, dropWhile_append_of_all _ sp t hspc]

/-- C4 witness: the amended theorem applied to the case-variant "dR." of
the honorific "Dr." followed by one space and the text "Mr. John"; exactly
one honorific is removed, the second one survives. -/
theorem C4_amended_honorific_strip_witness :
    (['D','r','.'] ∈ honorificsList) ∧
      stripTitle (['d','R','.'] ++ ([' '] ++ ("Mr. John" : String).data)) =
        ("Mr. John" : String).data.dropWhile isSpacePy :=
  ⟨by decide,
    C4_amended_honorific_strip ['D','r','.'] ['d','R','.'] [' ']
      ("Mr. John" : String).data (by decide) (by decide) (by decide) (by decide)⟩

/-! Claim C5. -/

/-- C5: running the strict pattern pipeline on the single block
"Dr. Jane A. Smith visited the White House." yields exactly
["Jane A. Smith"]; the hardcoded false-positive stoplist contains
"White House", which eliminates that candidate. -/
theorem C5_scenarioA :
    ExtractNamesSimple.extract_names_from_pdf
      ["Dr. Jane A. Smith visited the White House."] = ["Jane A. Smith"] := by
  rfl
/-! Lemmas about collapsed strings, for claim C2. -/

theorem collOk_tail {c : Char} {rest : List Char} (h : collOk (c :: rest) = true) :
    collOk rest = true := by
  unfold collOk at h
  by_cases hc : isSpacePy c = true
  · rw [if_pos hc] at h
    exact (Bool.and_eq_true_iff.mp h).2
  · rwa [if_neg hc] at h

theorem collapseAux_cons_of_not_space {c : Char} (cs : List Char) (flag : Bool)
    (h : isSpacePy c = false) :
    collapseAux (c :: cs) flag = c :: collapseAux cs false := by
  simp only [collapseAux, h]
  simp

theorem dropWhile_head_not {p : Char → Bool} :
    ∀ {l : List Char} {c : Char} {r : List Char},
      l.dropWhile p = c :: r → p c = false := by
  intro l
  induction l with
  | nil => intro c r h; cases h
  | cons a l2 ih =>
    intro c r h
    rw [List.dropWhile_cons] at h
    by_cases ha : p a = true
    · rw [if_pos ha] at h; exact ih h
    · rw [if_neg ha] at h
      cases h
      exact Bool.eq_false_iff.mpr ha

theorem collapseAux_true_head :
    ∀ (cs : List Char), cs ≠ [] → noTrailSpace cs = true →
      ∃ d xs, collapseAux cs true = d :: xs ∧ isSpacePy d = false := by
  intro cs
  induction cs with
  | nil => intro h; exact absurd rfl h
  | cons c rest ih =>
    intro _ hT
    by_cases hc : isSpacePy c = true
    · have hrest : rest ≠ [] := by
        intro he
        subst he
        unfold noTrailSpace at hT
        simp [List.getLast?_singleton, hc] at hT
      have hT2 : noTrailSpace rest = true := by
        unfold noTrailSpace at hT ⊢
        cases rest with
        | nil => exact absurd rfl hrest
        | cons d rs => rwa [List.getLast?_cons_cons] at hT
      have : collapseAux (c :: rest) true = collapseAux rest true := by
        rw [show collapseAux (c :: rest) true =
            (if isSpacePy c then collapseAux rest true
             else c :: collapseAux rest false) from rfl, hc]
        simp
      rw [this]
      exact ih hrest hT2
    · refine ⟨c, collapseAux rest false, ?_, Bool.eq_false_iff.mpr hc⟩
      exact collapseAux_cons_of_not_space rest true (Bool.eq_false_iff.mpr hc)

theorem collapseAux_collOk :
    ∀ (cs : List Char) (flag : Bool), noTrailSpace cs = true →
      collOk (collapseAux cs flag) = true := by
  intro cs
  induction cs with
  | nil => intro flag _; rfl
  | cons c rest ih =>
    intro flag hT
    by_cases hc : isSpacePy c = true
    · have hrest : rest ≠ [] := by
        intro he
        subst he
        unfold noTrailSpace at hT
        simp [List.getLast?_singleton, hc] at hT
      have hT2 : noTrailSpace rest = true := by
        unfold noTrailSpace at hT ⊢
        cases rest with
        | nil => exact absurd rfl hrest
        | cons d rs => rwa [List.getLast?_cons_cons] at hT
      cases flag with
      | true =>
        have : collapseAux (c :: rest) true = collapseAux rest true := by
          rw [show collapseAux (c :: rest) true =
              (if isSpacePy c then collapseAux rest true
               else c :: collapseAux rest false) from rfl, hc]
          simp
        rw [this]
        exact ih true hT2
      | false =>
        have he : collapseAux (c :: rest) false = ' ' :: collapseAux rest true := by
          rw [show collapseAux (c :: rest) false =
              (if isSpacePy c then ' ' :: collapseAux rest true
               else c :: collapseAux rest false) from rfl, hc]
          simp
        rw [he]
        obtain ⟨d, xs, hdx, hd⟩ := collapseAux_true_head rest hrest hT2
        unfold collOk
        rw [hdx]
        simp [hd]
        rw [← hdx]
        exact ih true hT2
    · have he : collapseAux (c :: rest) flag = c :: collapseAux rest false :=
        collapseAux_cons_of_not_space rest flag (Bool.eq_false_iff.mpr hc)
      rw [he]
      unfold collOk
      rw [Bool.eq_false_iff.mpr hc]
      simp only [Bool.false_eq_true, if_false]
      cases rest with
      | nil => rfl
      | cons d rs =>
        have hT2 : noTrailSpace (d :: rs) = true := by
          unfold noTrailSpace at hT ⊢
          rwa [List.getLast?_cons_cons] at hT
        exact ih false hT2

theorem collOk_noTrail : ∀ {cs : List Char}, collOk cs = true → noTrailSpace cs = true := by
  intro cs
  induction cs with
  | nil => intro _; rfl
  | cons c rest ih =>
    intro h
    cases rest with
    | nil =>
      unfold collOk at h
      by_cases hc : isSpacePy c = true
      · rw [if_pos hc] at h
        simp at h
      · unfold noTrailSpace
        simp [List.getLast?_singleton, Bool.eq_false_iff.mpr hc]
    | cons d rs =>
      have h2 := collOk_tail h
      have := ih h2
      unfold noTrailSpace at this ⊢
      rwa [List.getLast?_cons_cons]

theorem dropWhile_getLast? (p : Char → Bool) :
    ∀ (l : List Char), l.dropWhile p ≠ [] → (l.dropWhile p).getLast? = l.getLast? := by
  intro l
  induction l with
  | nil => intro h; exact absurd rfl h
  | cons c rest ih =>
    intro h
    rw [List.dropWhile_cons]
    by_cases hc : p c = true
    · rw [List.dropWhile_cons, if_pos hc] at h
      rw [if_pos hc, ih h]
      cases rest with
      | nil => simp [List.dropWhile] at h
      | cons d rs => rw [List.getLast?_cons_cons]
    · rw [if_neg hc]

theorem stripWs_noTrail (cs : List Char) : noTrailSpace (stripWs cs) = true := by
  unfold stripWs
  cases hd : (dropTrailWs cs).dropWhile isSpacePy with
  | nil => rfl
  | cons d rs =>
    have hne : (dropTrailWs cs).dropWhile isSpacePy ≠ [] := by rw [hd]; simp
    rw [← hd]
    unfold noTrailSpace
    rw [dropWhile_getLast? isSpacePy (dropTrailWs cs) hne]
    unfold dropTrailWs
    rw [List.getLast?_reverse]
    cases hh : (cs.reverse.dropWhile isSpacePy).head? with
    | none => rfl
    | some z =>
      cases hcs : cs.reverse.dropWhile isSpacePy with
      | nil => rw [hcs] at hh; cases hh
      | cons w ws =>
        rw [hcs] at hh
        simp at hh
        subst hh
        simp [dropWhile_head_not hcs]

theorem stripWs_head (cs : List Char) {d : Char} {rs : List Char}
    (h : stripWs cs = d :: rs) : isSpacePy d = false := by
  unfold stripWs at h
  exact dropWhile_head_not h

theorem collapse_isCollapsed (cs : List Char) : isCollapsedB (collapse cs) = true := by
  unfold collapse
  have hT := stripWs_noTrail cs
  cases hs : stripWs cs with
  | nil => rfl
  | cons d rs =>
    rw [hs] at hT
    have hd : isSpacePy d = false := stripWs_head cs hs
    rw [collapseAux_cons_of_not_space rs false hd]
    unfold isCollapsedB
    rw [Bool.and_eq_true_iff]
    constructor
    · simp [hd]
    · have := collapseAux_collOk (d :: rs) false hT
      rwa [collapseAux_cons_of_not_space rs false hd] at this

theorem collapseAux_id :
    ∀ (cs : List Char), collOk cs = true →
      (collapseAux cs false = cs ∧
        (∀ d r, cs = d :: r → isSpacePy d = false → collapseAux cs true = cs)) := by
  intro cs
  induction cs with
  | nil => intro _; exact ⟨rfl, by intro d r h; cases h⟩
  | cons c rest ih =>
    intro hco
    have hrest := collOk_tail hco
    by_cases hc : isSpacePy c = true
    · unfold collOk at hco
      rw [if_pos hc] at hco
      rw [Bool.and_eq_true_iff, Bool.and_eq_true_iff] at hco
      obtain ⟨⟨hsp, hnext⟩, _⟩ := hco
      have hcsp : c = ' ' := by simpa using hsp
      constructor
      · have he : collapseAux (c :: rest) false = ' ' :: collapseAux rest true := by
          simp only [collapseAux, hc]; simp
        rw [he, hcsp]
        cases rest with
        | nil => exact absurd (hnext : false = true) (by decide)
        | cons d rs =>
          have hd : isSpacePy d = false := by
            have hx : (!isSpacePy d) = true := hnext
            simpa using hx
          rw [(ih hrest).2 d rs rfl hd]
      · intro d r hdr hdn
        cases hdr
        rw [hdn] at hc
        cases hc
    · have hcf : isSpacePy c = false := Bool.eq_false_iff.mpr hc
      have he : ∀ flag, collapseAux (c :: rest) flag = c :: collapseAux rest false := by
        intro flag; exact collapseAux_cons_of_not_space rest flag hcf
      constructor
      · rw [he false, (ih hrest).1]
      · intro d r hdr hdn
        rw [he true, (ih hrest).1]

theorem stripWs_id (cs : List Char) (hhead : isCollapsedB cs = true) :
    stripWs cs = cs := by
  unfold isCollapsedB at hhead
  rw [Bool.and_eq_true_iff] at hhead
  obtain ⟨hh, hco⟩ := hhead
  have hT := collOk_noTrail hco
  unfold stripWs dropTrailWs
  have h1 : cs.reverse.dropWhile isSpacePy = cs.reverse := by
    unfold noTrailSpace at hT
    cases hr : cs.reverse with
    | nil => rfl
    | cons z zs =>
      have : cs.getLast? = some z := by
        rw [← List.head?_reverse]
        rw [hr]
        rfl
      rw [this] at hT
      have hx : (!isSpacePy z) = true := hT
      rw [List.dropWhile_cons, if_neg]
      intro hzz
      rw [hzz] at hx
      cases hx
  rw [h1, List.reverse_reverse]
  cases cs with
  | nil => rfl
  | cons d rs =>
    rw [List.dropWhile_cons, if_neg]
    intro hdd
    simp at hh
    rw [hdd] at hh
    cases hh

theorem collapse_id (cs : List Char) (h : isCollapsedB cs = true) :
    collapse cs = cs := by
  unfold collapse
  rw [stripWs_id cs h]
  unfold isCollapsedB at h
  rw [Bool.and_eq_true_iff] at h
  exact (collapseAux_id cs h.2).1

theorem collOk_drop :
    ∀ (n : Nat) (cs : List Char), collOk cs = true → collOk (cs.drop n) = true := by
  intro n
  induction n with
  | zero => intro cs h; exact h
  | succ m ih =>
    intro cs h
    cases cs with
    | nil => rfl
    | cons c rest =>
      rw [List.drop_succ_cons]
      exact ih rest (collOk_tail h)

theorem collOk_dropWhile (p : Char → Bool) :
    ∀ (cs : List Char), collOk cs = true → collOk (cs.dropWhile p) = true := by
  intro cs
  induction cs with
  | nil => intro _; rfl
  | cons c rest ih =>
    intro h
    rw [List.dropWhile_cons]
    by_cases hc : p c = true
    · rw [if_pos hc]; exact ih (collOk_tail h)
    · rw [if_neg hc]; exact h

theorem isCollapsedB_dropWhileSpace (cs : List Char) (h : collOk cs = true) :
    isCollapsedB (cs.dropWhile isSpacePy) = true := by
  unfold isCollapsedB
  rw [Bool.and_eq_true_iff]
  refine ⟨?_, collOk_dropWhile isSpacePy cs h⟩
  cases hd : cs.dropWhile isSpacePy with
  | nil => rfl
  | cons d rs => simp [dropWhile_head_not hd]

theorem stripTitle_isCollapsed (cs : List Char) (h : isCollapsedB cs = true) :
    isCollapsedB (stripTitle cs) = true := by
  unfold isCollapsedB at h
  rw [Bool.and_eq_true_iff] at h
  unfold stripTitle
  cases honorificsList.find? (fun h2 => ciPreSpace h2 cs) with
  | none =>
    unfold isCollapsedB
    rw [Bool.and_eq_true_iff]
    exact h
  | some hon =>
    exact isCollapsedB_dropWhileSpace _ (collOk_drop hon.length cs h.2)

theorem collOk_append_left :
    ∀ (l r : List Char), collOk (l ++ r) = true →
      (∀ z, l.getLast? = some z → isSpacePy z = false) → collOk l = true := by
  intro l
  induction l with
  | nil => intro r _ _; rfl
  | cons a l2 ih =>
    intro r h hlast
    rw [List.cons_append] at h
    by_cases ha : isSpacePy a = true
    · unfold collOk at h
      rw [if_pos ha, Bool.and_eq_true_iff, Bool.and_eq_true_iff] at h
      obtain ⟨⟨hsp, hnext⟩, htl⟩ := h
      cases l2 with
      | nil =>
        exact absurd (hlast a (by rfl)) (by simp [ha])
      | cons e l3 =>
        have hne : isSpacePy e = false := by
          have hx : (!isSpacePy e) = true := hnext
          simpa using hx
        unfold collOk
        rw [if_pos ha, Bool.and_eq_true_iff, Bool.and_eq_true_iff]
        refine ⟨⟨hsp, by simp [hne]⟩, ?_⟩
        apply ih r htl
        intro z hz
        apply hlast
        rwa [List.getLast?_cons_cons]
    · unfold collOk at h ⊢
      rw [if_neg ha] at h ⊢
      cases l2 with
      | nil => rfl
      | cons e l3 =>
        apply ih r h
        intro z hz
        apply hlast
        rwa [List.getLast?_cons_cons]

theorem stripSuffix_isCollapsed (cs : List Char) (h : isCollapsedB cs = true) :
    isCollapsedB (stripSuffixFn cs) = true := by
  unfold isCollapsedB at h
  rw [Bool.and_eq_true_iff] at h
  obtain ⟨hhead, hco⟩ := h
  have heq : stripSuffixFn cs =
      (if (!((cs.reverse.dropWhile (fun c => !isSpacePy c)).takeWhile isSpacePy).isEmpty &&
          suffixesList.any (fun suf =>
            lowerEq (cs.reverse.takeWhile (fun c => !isSpacePy c)).reverse suf)) = true then
        ((cs.reverse.dropWhile (fun c => !isSpacePy c)).dropWhile isSpacePy).reverse
      else cs) := rfl
  rw [heq]
  split
  · set A := cs.reverse.takeWhile (fun c => !isSpacePy c) with hA
    set B := cs.reverse.dropWhile (fun c => !isSpacePy c) with hB
    set W := B.takeWhile isSpacePy with hW
    set R := B.dropWhile isSpacePy with hR
    have h1 : cs.reverse = A ++ B := (List.takeWhile_append_dropWhile _ _).symm
    have h2 : B = W ++ R := (List.takeWhile_append_dropWhile _ _).symm
    have hdecomp : cs = R.reverse ++ (W.reverse ++ A.reverse) := by
      calc cs = cs.reverse.reverse := (List.reverse_reverse cs).symm
        _ = (A ++ B).reverse := by rw [h1]
        _ = (A ++ (W ++ R)).reverse := by rw [← h2]
        _ = R.reverse ++ (W.reverse ++ A.reverse) := by
            simp [List.reverse_append, List.append_assoc]
    have hcoR : collOk R.reverse = true := by
      apply collOk_append_left R.reverse (W.reverse ++ A.reverse)
        (by rw [← hdecomp]; exact hco)
      intro z hz
      rw [List.getLast?_reverse] at hz
      cases hRc : R with
      | nil => rw [hRc] at hz; cases hz
      | cons d ds =>
        rw [hRc] at hz
        simp at hz
        rw [← hz]
        exact dropWhile_head_not hRc
    unfold isCollapsedB
    rw [Bool.and_eq_true_iff]
    refine ⟨?_, hcoR⟩
    cases hRr : R.reverse with
    | nil => rfl
    | cons d ds =>
      rw [hRr] at hdecomp
      rw [hdecomp] at hhead
      exact hhead
  · unfold isCollapsedB
    rw [Bool.and_eq_true_iff]
    exact ⟨hhead, hco⟩

theorem clean_name_isCollapsed (t : String) :
    isCollapsedB (clean_name t).data = true := by
  show isCollapsedB (stripSuffixFn (stripTitle (collapse t.data))) = true
  exact stripSuffix_isCollapsed _ (stripTitle_isCollapsed _ (collapse_isCollapsed t.data))

/-- C2 amended: clean_name output is always whitespace-collapsed, so the
collapse step of a second application is the identity, and clean_name is
idempotent on every output from which the honorific and the suffix step
strip nothing further; outputs still starting with an honorific (stacked
honorifics) or ending in a stacked suffix are changed again. -/
theorem C2_amended_idempotent_when_fully_stripped (t : String)
    (h1 : stripTitle (clean_name t).data = (clean_name t).data)
    (h2 : stripSuffixFn (clean_name t).data = (clean_name t).data) :
    clean_name (clean_name t) = clean_name t := by
  show (⟨stripSuffixFn (stripTitle (collapse (clean_name t).data))⟩ : String) = clean_name t
  rw [collapse_id _ (clean_name_isCollapsed t), h1, h2]

/-- C2 counterexample: the claim says every clean_name output is a fixed
point, but clean_name removes at most one honorific per application, so
the output for "Dr. Mr. John Smith" still starts with an honorific and a
second application changes it again. -/
theorem C2_counterexample :
    clean_name (clean_name "Dr. Mr. John Smith") ≠
      clean_name "Dr. Mr. John Smith" := by
  decide

/-- C2 witness: the conditional idempotence theorem applied to the input
"Dr.  John   Smith", whose output "John Smith" has no honorific and no
suffix left to strip. -/
theorem C2_amended_idempotent_when_fully_stripped_witness :
    (stripTitle (clean_name "Dr.  John   Smith").data =
        (clean_name "Dr.  John   Smith").data ∧
      stripSuffixFn (clean_name "Dr.  John   Smith").data =
        (clean_name "Dr.  John   Smith").data) ∧
      clean_name (clean_name "Dr.  John   Smith") = clean_name "Dr.  John   Smith" :=
  ⟨⟨by decide, by decide⟩,
    C2_amended_idempotent_when_fully_stripped "Dr.  John   Smith" (by decide) (by decide)⟩

theorem listLe_total : ∀ a b : List Char, listLe a b = true ∨ listLe b a = true := by
  intro a
  induction a with
  | nil => intro b; left; rfl
  | cons x xs ih =>
    intro b
    cases b with
    | nil => right; rfl
    | cons y ys =>
      simp only [listLe]
      rcases Nat.lt_trichotomy x.toNat y.toNat with h | h | h
      · left; rw [if_pos h]
      · rw [if_neg (by omega), if_neg (by omega), if_neg (by omega), if_neg (by omega)]
        exact ih ys
      · right; rw [if_pos h]

theorem listLe_trans :
    ∀ a b c : List Char, listLe a b = true → listLe b c = true → listLe a c = true := by
  intro a
  induction a with
  | nil => intro b c _ _; rfl
  | cons x xs ih =>
    intro b c hab hbc
    cases b with
    | nil => simp [listLe] at hab
    | cons y ys =>
      cases c with
      | nil => simp [listLe] at hbc
      | cons z zs =>
        simp only [listLe] at hab hbc ⊢
        rcases Nat.lt_trichotomy x.toNat y.toNat with h1 | h1 | h1
        · rcases Nat.lt_trichotomy y.toNat z.toNat with h2 | h2 | h2
          · rw [if_pos (by omega)]
          · rw [if_pos (by omega)]
          · rw [if_neg (by omega), if_pos (by omega)] at hbc
            cases hbc
        · rcases Nat.lt_trichotomy y.toNat z.toNat with h2 | h2 | h2
          · rw [if_pos (by omega)]
          · rw [if_neg (by omega), if_neg (by omega)] at hab
            rw [if_neg (by omega), if_neg (by omega)] at hbc
            rw [if_neg (by omega), if_neg (by omega)]
            exact ih ys zs hab hbc
          · rw [if_neg (by omega), if_pos (by omega)] at hbc
            cases hbc
        · rw [if_neg (by omega), if_pos (by omega)] at hab
          cases hab

theorem listLe_antisymm :
    ∀ a b : List Char, listLe a b = true → listLe b a = true → a = b := by
  intro a
  induction a with
  | nil =>
    intro b _ hba
    cases b with
    | nil => rfl
    | cons y ys => simp [listLe] at hba
  | cons x xs ih =>
    intro b hab hba
    cases b with
    | nil => simp [listLe] at hab
    | cons y ys =>
      simp only [listLe] at hab hba
      rcases Nat.lt_trichotomy x.toNat y.toNat with h1 | h1 | h1
      · rw [if_neg (by omega), if_pos (by omega)] at hba
        cases hba
      · rw [if_neg (by omega), if_neg (by omega)] at hab hba
        have hxy : x = y := Char.ext (UInt32.ext h1)
        rw [hxy, ih ys hab hba]
      · rw [if_neg (by omega), if_pos (by omega)] at hab
        cases hab

instance : IsTotal String rStr := ⟨fun a b => listLe_total a.data b.data⟩

instance : IsTrans String rStr := ⟨fun a b c => listLe_trans a.data b.data c.data⟩

instance : IsAntisymm String rStr :=
  ⟨fun a b hab hba => by
    cases a with
    | mk da => cases b with
      | mk db => exact congrArg String.mk (listLe_antisymm da db hab hba)⟩

theorem mem_uniqueAux :
    ∀ (l seen : List String) (x : String),
      x ∈ uniqueAux seen l ↔ (x ∈ l ∧ x ∉ seen) := by
  intro l
  induction l with
  | nil => intro seen x; simp [uniqueAux]
  | cons y ys ih =>
    intro seen x
    unfold uniqueAux
    by_cases h : y ∈ seen
    · rw [if_pos h, ih]
      constructor
      · rintro ⟨hx, hns⟩; exact ⟨List.mem_cons_of_mem _ hx, hns⟩
      · rintro ⟨hx, hns⟩
        cases List.mem_cons.mp hx with
        | inl he => exact absurd (he ▸ h) hns
        | inr hm => exact ⟨hm, hns⟩
    · rw [if_neg h]
      constructor
      · intro hx
        cases List.mem_cons.mp hx with
        | inl he => exact ⟨he ▸ List.mem_cons_self y ys, he ▸ h⟩
        | inr hm =>
          obtain ⟨h1, h2⟩ := (ih (y :: seen) x).mp hm
          exact ⟨List.mem_cons_of_mem _ h1, fun hs => h2 (List.mem_cons_of_mem _ hs)⟩
      · rintro ⟨hx, hns⟩
        by_cases hxy : x = y
        · exact hxy ▸ List.mem_cons_self ..
        · cases List.mem_cons.mp hx with
          | inl he => exact absurd he hxy
          | inr hm =>
            apply List.mem_cons_of_mem
            exact (ih (y :: seen) x).mpr ⟨hm, by
              intro hs
              cases List.mem_cons.mp hs with
              | inl he => exact hxy he
              | inr h2 => exact hns h2⟩

theorem nodup_uniqueAux : ∀ (l seen : List String), (uniqueAux seen l).Nodup := by
  intro l
  induction l with
  | nil => intro seen; exact List.nodup_nil
  | cons y ys ih =>
    intro seen
    unfold uniqueAux
    by_cases h : y ∈ seen
    · rw [if_pos h]; exact ih seen
    · rw [if_neg h]
      refine List.nodup_cons.mpr ⟨?_, ih (y :: seen)⟩
      intro hy
      exact ((mem_uniqueAux ys (y :: seen) y).mp hy).2 (List.mem_cons_self ..)

theorem mem_unique (l : List String) (x : String) : x ∈ unique l ↔ x ∈ l := by
  rw [unique, mem_uniqueAux]
  simp

theorem nodup_unique (l : List String) : (unique l).Nodup := nodup_uniqueAux l []

/-- C6: for every generator, validator and block list, the pipeline result
is sorted under the code-point order used by Python's sorted, has no two
equal elements under the (case-sensitive) dedup policy, and is therefore
strictly increasing. -/
theorem C6_result_sorted_nodup (gen : String → List String) (valid : String → Bool)
    (blocks : List String) :
    List.Sorted rStr (pipeline gen valid blocks) ∧
      (pipeline gen valid blocks).Nodup ∧
      (pipeline gen valid blocks).Pairwise (fun a b => rStr a b ∧ a ≠ b) := by
  have hs : List.Sorted rStr (pipeline gen valid blocks) :=
    List.sorted_insertionSort rStr _
  have hnd : (pipeline gen valid blocks).Nodup :=
    (List.perm_insertionSort rStr _).nodup_iff.mpr (nodup_uniqueAux _ [])
  exact ⟨hs, hnd, hs.and hnd⟩

/-- C7: every element of the pipeline result passes the active validator;
equivalently a normalized string failing the validator never appears. -/
theorem C7_validator_soundness (gen : String → List String) (valid : String → Bool)
    (blocks : List String) (x : String)
    (hx : x ∈ pipeline gen valid blocks) : valid x = true := by
  unfold pipeline at hx
  rw [List.mem_insertionSort, mem_unique] at hx
  exact List.of_mem_filter hx

/-- C8: the pipeline result does not depend on the order of the text
blocks: any permutation of the block list yields the identical result,
because deduplication keeps exactly one copy of each distinct string and
the final sort fixes the order. -/
theorem C8_block_order_invariance (gen : String → List String) (valid : String → Bool)
    (b1 b2 : List String) (hp : b1.Perm b2) :
    pipeline gen valid b1 = pipeline gen valid b2 := by
  have hc : List.Perm (b1.map gen).flatten (b2.map gen).flatten := by
    rw [← List.flatMap_def, ← List.flatMap_def]
    exact hp.flatMap_right gen
  have hf : List.Perm ((((b1.map gen).flatten).map clean_name).filter valid)
      ((((b2.map gen).flatten).map clean_name).filter valid) :=
    (hc.map clean_name).filter valid
  have hu : List.Perm (unique ((((b1.map gen).flatten).map clean_name).filter valid))
      (unique ((((b2.map gen).flatten).map clean_name).filter valid)) := by
    rw [List.perm_ext_iff_of_nodup (nodup_unique _) (nodup_unique _)]
    intro a
    rw [mem_unique, mem_unique]
    exact hf.mem_iff
  unfold pipeline
  have hperm : List.Perm
      (List.insertionSort rStr
        (unique ((((b1.map gen).flatten).map clean_name).filter valid)))
      (List.insertionSort rStr
        (unique ((((b2.map gen).flatten).map clean_name).filter valid))) :=
    (List.perm_insertionSort rStr _).trans
      (hu.trans (List.perm_insertionSort rStr _).symm)
  exact List.eq_of_perm_of_sorted hperm
    (List.sorted_insertionSort rStr _) (List.sorted_insertionSort rStr _)

/-- C7 witness: the soundness theorem applied to the strict pattern
pipeline on the scenario-A block at the element "Jane A. Smith". -/
theorem C7_validator_soundness_witness :
    ("Jane A. Smith" ∈ ExtractNamesSimple.extract_names_from_pdf
        ["Dr. Jane A. Smith visited the White House."]) ∧
      ExtractNamesSimple.is_valid_name "Jane A. Smith" = true :=
  ⟨by decide,
    C7_validator_soundness ExtractNamesSimple.extract_potential_names
      ExtractNamesSimple.is_valid_name
      ["Dr. Jane A. Smith visited the White House."] "Jane A. Smith" (by decide)⟩

/-- C8 witness: the invariance theorem applied to the strict pattern
pipeline on a two-block list and its transposition. -/
theorem C8_block_order_invariance_witness :
    ExtractNamesSimple.extract_names_from_pdf
        ["Mary Jane Doe appears here.", "Zeta Abc met Alpha Bcd."] =
      ExtractNamesSimple.extract_names_from_pdf
        ["Zeta Abc met Alpha Bcd.", "Mary Jane Doe appears here."] :=
  C8_block_order_invariance ExtractNamesSimple.extract_potential_names
    ExtractNamesSimple.is_valid_name _ _
    (List.Perm.swap "Zeta Abc met Alpha Bcd." "Mary Jane Doe appears here." [])

/-- Tokens produced by Python's str.split() are never empty: helper for
claim C10. -/
theorem splitPyAux_ne_nil :
    ∀ (cs acc : List Char), ∀ t ∈ splitPyAux cs acc, t ≠ [] := by
  intro cs
  induction cs with
  | nil =>
    intro acc t ht
    unfold splitPyAux at ht
    by_cases ha : acc.isEmpty
    · rw [if_pos ha] at ht; cases ht
    · rw [if_neg ha] at ht
      simp at ht
      subst ht
      simp
      intro hn
      rw [hn] at ha
      exact ha rfl
  | cons c rest ih =>
    intro acc t ht
    unfold splitPyAux at ht
    by_cases hc : isSpacePy c = true
    · rw [if_pos hc] at ht
      by_cases ha : acc.isEmpty
      · rw [if_pos ha] at ht
        exact ih [] t ht
      · rw [if_neg ha] at ht
        cases ht with
        | head =>
          simp
          intro hn
          rw [hn] at ha
          exact ha rfl
        | tail _ h2 => exact ih [] t h2
    · rw [if_neg hc] at ht
      exact ih (c :: acc) t ht

/-- The Option-valued per-part check never fails and computes the same
boolean as the per-part check of the strict validator. -/
theorem partCheckOpt_eq :
    ∀ parts : List (List Char),
      ExtractNamesSimple.partCheckOpt parts =
        some (parts.all ExtractNamesSimple.partHeadOk) := by
  intro parts
  induction parts with
  | nil => rfl
  | cons p ps ih =>
    cases p with
    | nil =>
      show ExtractNamesSimple.partCheckOpt ps = _
      rw [ih]
      simp [ExtractNamesSimple.partHeadOk]
    | cons c cs =>
      show (if (c :: cs).isEmpty then _ else _) = _
      rw [if_neg (by simp)]
      show (match (c :: cs).head? with
            | none => none
            | some c2 =>
              if c2.isAlpha then
                match (c :: cs).head? with
                | none => none
                | some c3 =>
                  (ExtractNamesSimple.partCheckOpt ps).map (fun b => c3.isUpper && b)
              else ExtractNamesSimple.partCheckOpt ps) = _
      simp only [List.head?_cons]
      by_cases hca : c.isAlpha = true
      · rw [if_pos hca, ih]
        simp [ExtractNamesSimple.partHeadOk, hca]
      · rw [if_neg hca, ih]
        simp [ExtractNamesSimple.partHeadOk, Bool.eq_false_iff.mpr hca]

/-- C10: both validators are total.  The strict validator, rewritten with
every `part[0]` index as a fallible operation, never returns none and
agrees with the direct embedding (the guard `if part` protects each index,
and split() tokens are never empty anyway, as the second conjunct states);
the loose validator contains no indexing at all. -/
theorem C10_validator_total (name : String) :
    ExtractNamesSimple.is_valid_nameOpt name =
        some (ExtractNamesSimple.is_valid_name name) ∧
      ∀ t ∈ splitPy name.data, t ≠ [] := by
  constructor
  · simp only [ExtractNamesSimple.is_valid_nameOpt, ExtractNamesSimple.is_valid_name,
      partCheckOpt_eq]
    repeat' split
    all_goals simp_all
  · exact fun t ht => splitPyAux_ne_nil name.data [] t ht

namespace ExtractNamesSimple

theorem spAll_takeWhile {cs : List Char} (p : Char → Bool)
    (he : ¬(cs.takeWhile isSpacePy).isEmpty = true) :
    spAll (cs.takeWhile isSpacePy) = true := by
  unfold spAll
  rw [Bool.and_eq_true_iff]
  refine ⟨by simpa using he, ?_⟩
  rw [List.all_eq_true]
  intro x hx
  exact List.mem_takeWhile_imp hx

theorem matchWord_ok {cs w rest : List Char} (h : matchWord cs = some (w, rest)) :
    isTitleTok w = true := by
  cases cs with
  | nil => cases h
  | cons c cs2 =>
    have h2 : (if c.isUpper then
        (if (cs2.takeWhile Char.isLower).isEmpty then none
         else some (c :: cs2.takeWhile Char.isLower, cs2.dropWhile Char.isLower))
      else none) = some (w, rest) := h
    split at h2
    · split at h2
      · cases h2
      · injection h2 with h1
        injection h1 with hw hr
        rw [← hw]
        rename_i hu he
        show (c.isUpper && !(cs2.takeWhile Char.isLower).isEmpty &&
          (cs2.takeWhile Char.isLower).all Char.isLower) = true
        rw [hu]
        simp only [Bool.true_and]
        rw [Bool.and_eq_true_iff]
        refine ⟨by simpa using he, ?_⟩
        rw [List.all_eq_true]
        intro x hx
        exact List.mem_takeWhile_imp hx
    · cases h2

theorem matchIni_ok {cs : List Char} {sp tok rest : List Char}
    (h : matchIni cs = some ((sp, tok), rest)) :
    spAll sp = true ∧ isIniTok tok = true := by
  have h2 : (if (cs.takeWhile isSpacePy).isEmpty then none
      else
        match cs.dropWhile isSpacePy with
        | [] => none
        | c :: rest2 =>
          if c.isUpper then
            match rest2 with
            | '.' :: rest3 => some ((cs.takeWhile isSpacePy, [c, '.']), rest3)
            | _ => some ((cs.takeWhile isSpacePy, [c]), rest2)
          else none) = some ((sp, tok), rest) := h
  split at h2
  · cases h2
  · rename_i he
    split at h2
    · cases h2
    · rename_i c rest2 heq
      split at h2
      · rename_i hu
        split at h2
        · injection h2 with h1
          injection h1 with hpair h3
          injection hpair with h4 h5
          rw [← h4, ← h5]
          exact ⟨spAll_takeWhile isSpacePy he, by simp [isIniTok, hu]⟩
        · injection h2 with h1
          injection h1 with hpair h3
          injection hpair with h4 h5
          rw [← h4, ← h5]
          exact ⟨spAll_takeWhile isSpacePy he, by simp [isIniTok, hu]⟩
      · cases h2

theorem matchRep_ok {cs : List Char} {sp w rest : List Char}
    (h : matchRep cs = some ((sp, w), rest)) :
    repOk (sp, w) = true := by
  have h2 : (if (cs.takeWhile isSpacePy).isEmpty then none
      else
        match matchWord (cs.dropWhile isSpacePy) with
        | none => none
        | some (w2, rest2) => some ((cs.takeWhile isSpacePy, w2), rest2)) =
      some ((sp, w), rest) := h
  split at h2
  · cases h2
  · rename_i he
    split at h2
    · cases h2
    · rename_i w2 rest2 heq
      injection h2 with h1
      injection h1 with hpair h3
      injection hpair with h4 h5
      rw [repOk, ← h4, ← h5]
      rw [Bool.and_eq_true_iff]
      exact ⟨spAll_takeWhile isSpacePy he, matchWord_ok heq⟩

theorem matchReps_ok :
    ∀ (fuel : Nat) (cs : List Char), ∀ p ∈ (matchReps fuel cs).1, repOk p = true := by
  intro fuel
  induction fuel with
  | zero => intro cs q hq; simp [matchReps] at hq
  | succ f ih =>
    intro cs p hp
    cases hm : matchRep cs with
    | none =>
      have h2 : (matchReps (f + 1) cs).1 = [] := by
        simp [matchReps, hm]
      rw [h2] at hp
      cases hp
    | some prrest =>
      obtain ⟨pr, rest⟩ := prrest
      have h2 : (matchReps (f + 1) cs).1 = pr :: (matchReps f rest).1 := by
        simp [matchReps, hm]
      rw [h2] at hp
      cases hp with
      | head =>
        obtain ⟨sp, w⟩ := p
        exact matchRep_ok hm
      | tail _ hmem => exact ih rest p hmem

theorem matchRepsB_ok {cs : List Char} {rs : List (List Char × List Char)}
    {rest : List Char} (h : matchRepsB cs = some (rs, rest)) :
    rs ≠ [] ∧ ∀ p ∈ rs, repOk p = true := by
  have hall := matchReps_ok (cs.length + 1) cs
  have h2 : (if (matchReps (cs.length + 1) cs).1.isEmpty then none
      else if bOk (matchReps (cs.length + 1) cs).2 then
        some ((matchReps (cs.length + 1) cs).1, (matchReps (cs.length + 1) cs).2)
      else
        match (matchReps (cs.length + 1) cs).1.getLast? with
        | none => none
        | some lastP =>
          match (matchReps (cs.length + 1) cs).1.dropLast with
          | [] => none
          | rs2 => some (rs2, lastP.1 ++ lastP.2 ++ (matchReps (cs.length + 1) cs).2)) =
      some (rs, rest) := h
  split at h2
  · cases h2
  · rename_i hne
    split at h2
    · injection h2 with h1
      injection h1 with h3 h4
      rw [← h3]
      refine ⟨by simpa using hne, hall⟩
    · split at h2
      · cases h2
      · rename_i lastP hlast
        split at h2
        · cases h2
        · rename_i a l heq
          injection h2 with h1
          injection h1 with h3 h4
          rw [← h3]
          refine ⟨heq, ?_⟩
          intro p hp
          exact hall p (List.dropLast_subset _ hp)

theorem matchName_ok {cs : List Char} {nm : NameMatch} {rest : List Char}
    (h : matchName cs = some (nm, rest)) : nmOk nm = true := by
  have h2 : (match matchWord cs with
      | none => none
      | some (t1, rest1) =>
        match
          (match matchIni rest1 with
           | none => none
           | some ((sp, tok), rest2) =>
             match matchRepsB rest2 with
             | none => none
             | some (rs, rest3) => some ((⟨t1, some (sp, tok), rs⟩ : NameMatch), rest3))
        with
        | some r => some r
        | none =>
          match matchRepsB rest1 with
          | none => none
          | some (rs, rest3) => some ((⟨t1, none, rs⟩ : NameMatch), rest3)) =
      some (nm, rest) := h
  split at h2
  · cases h2
  · rename_i t1 rest1 hw
    split at h2
    · rename_i r hr
      -- the inner with-initial attempt succeeded
      split at hr
      · cases hr
      · rename_i sp tok rest2 hini
        split at hr
        · cases hr
        · rename_i rs rest3 hrb
          injection hr with hr1
          cases hr1
          injection h2 with h3
          injection h3 with h4 h5
          rw [← h4]
          obtain ⟨hsp, htok⟩ := matchIni_ok hini
          obtain ⟨hrs, hall⟩ := matchRepsB_ok hrb
          unfold nmOk
          simp only []
          rw [matchWord_ok hw, hsp, htok]
          simp only [Bool.true_and, Bool.and_eq_true_iff]
          refine ⟨by simpa using hrs, ?_⟩
          rw [List.all_eq_true]
          exact hall
    · rename_i hfail
      split at h2
      · cases h2
      · rename_i rs rest3 hrb
        injection h2 with h3
        injection h3 with h4 h5
        rw [← h4]
        obtain ⟨hrs, hall⟩ := matchRepsB_ok hrb
        unfold nmOk
        simp only []
        rw [matchWord_ok hw]
        simp only [Bool.true_and, Bool.and_eq_true_iff]
        refine ⟨by simpa using hrs, ?_⟩
        rw [List.all_eq_true]
        exact hall

theorem scanName_ok :
    ∀ (fuel : Nat) (prev : Bool) (cs : List Char) (cand : List Char),
      cand ∈ scanName fuel prev cs →
        ∃ nm, nmOk nm = true ∧ cand = render nm := by
  intro fuel
  induction fuel with
  | zero => intro prev cs cand h; simp [scanName] at h
  | succ f ih =>
    intro prev cs cand h
    cases cs with
    | nil => simp [scanName] at h
    | cons c rest =>
      cases prev with
      | true =>
        have h2 : cand ∈ scanName f (isWordChar c) rest := h
        exact ih _ _ _ h2
      | false =>
        have h2 : cand ∈ (match matchName (c :: rest) with
            | some (nm, rest2) => render nm :: scanName f true rest2
            | none => scanName f (isWordChar c) rest) := h
        cases hm : matchName (c :: rest) with
        | none =>
          rw [hm] at h2
          exact ih _ _ _ h2
        | some pr =>
          obtain ⟨nm, rest2⟩ := pr
          rw [hm] at h2
          have h3 : cand ∈ render nm :: scanName f true rest2 := h2
          cases h3 with
          | head => exact ⟨nm, matchName_ok hm, rfl⟩
          | tail _ hmem => exact ih _ _ _ hmem

theorem matchTitleName_ok {cs : List Char} {g rest : List Char}
    (h : matchTitleName cs = some (g, rest)) :
    ∃ nm, nmOk nm = true ∧ g = render nm := by
  have h2 : (match honorificsList.find? (fun h2 => h2.isPrefixOf cs) with
      | none => none
      | some hon =>
        if ((cs.drop hon.length).takeWhile isSpacePy).isEmpty then none
        else
          match matchName ((cs.drop hon.length).dropWhile isSpacePy) with
          | some (nm, rest2) => some (render nm, rest2)
          | none => none) = some (g, rest) := h
  split at h2
  · cases h2
  · split at h2
    · cases h2
    · split at h2
      · rename_i nm rest2 hm
        injection h2 with h3
        injection h3 with h4 h5
        exact ⟨nm, matchName_ok hm, h4.symm⟩
      · cases h2

theorem scanTitle_ok :
    ∀ (fuel : Nat) (prev : Bool) (cs : List Char) (cand : List Char),
      cand ∈ scanTitle fuel prev cs →
        ∃ nm, nmOk nm = true ∧ cand = render nm := by
  intro fuel
  induction fuel with
  | zero => intro prev cs cand h; simp [scanTitle] at h
  | succ f ih =>
    intro prev cs cand h
    cases cs with
    | nil => simp [scanTitle] at h
    | cons c rest =>
      cases prev with
      | true =>
        have h2 : cand ∈ scanTitle f (isWordChar c) rest := h
        exact ih _ _ _ h2
      | false =>
        have h2 : cand ∈ (match matchTitleName (c :: rest) with
            | some (g, rest2) => g :: scanTitle f true rest2
            | none => scanTitle f (isWordChar c) rest) := h
        cases hm : matchTitleName (c :: rest) with
        | none =>
          rw [hm] at h2
          exact ih _ _ _ h2
        | some pr =>
          obtain ⟨g, rest2⟩ := pr
          rw [hm] at h2
          have h3 : cand ∈ g :: scanTitle f true rest2 := h2
          cases h3 with
          | head => exact matchTitleName_ok hm
          | tail _ hmem => exact ih _ _ _ hmem

theorem extract_ok {text : String} {cand : String}
    (h : cand ∈ extract_potential_names text) :
    ∃ nm, nmOk nm = true ∧ cand.data = render nm := by
  unfold extract_potential_names at h
  rw [List.mem_append] at h
  cases h with
  | inl h1 =>
    rw [List.mem_map] at h1
    obtain ⟨l, hl, hcand⟩ := h1
    obtain ⟨nm, hok, hrl⟩ := scanName_ok _ _ _ _ hl
    exact ⟨nm, hok, by rw [← hcand, ← hrl]⟩
  | inr h1 =>
    rw [List.mem_map] at h1
    obtain ⟨l, hl, hcand⟩ := h1
    obtain ⟨nm, hok, hrl⟩ := scanTitle_ok _ _ _ _ hl
    exact ⟨nm, hok, by rw [← hcand, ← hrl]⟩

theorem titleTok_chars {t : List Char} (h : isTitleTok t = true) :
    ∀ c ∈ t, c.isAlpha = true := by
  cases t with
  | nil => cases h
  | cons c rest =>
    have h2 : (c.isUpper && !rest.isEmpty && rest.all Char.isLower) = true := h
    rw [Bool.and_eq_true_iff, Bool.and_eq_true_iff] at h2
    intro d hd
    cases List.mem_cons.mp hd with
    | inl he =>
      rw [he]
      simp [Char.isAlpha, h2.1.1]
    | inr hm =>
      have := (List.all_eq_true.mp h2.2) d hm
      simp [Char.isAlpha, this]

theorem iniTok_chars {tok : List Char} (h : isIniTok tok = true) :
    ∀ c ∈ tok, c.isAlpha = true ∨ c = '.' := by
  match tok with
  | [c] =>
    intro d hd
    have h2 : c.isUpper = true := h
    have hdc : d = c := by simpa using hd
    left
    rw [hdc]
    simp [Char.isAlpha, h2]
  | [c, p] =>
    intro d hd
    have h2 : (c.isUpper && p == '.') = true := h
    rw [Bool.and_eq_true_iff] at h2
    rcases (by simpa using hd : d = c ∨ d = p) with he | he
    · left; rw [he]; simp [Char.isAlpha, h2.1]
    · right; rw [he]; simpa using h2.2
  | [] => cases h
  | c :: p :: q :: rest2 => cases h

theorem spAll_chars {sp : List Char} (h : spAll sp = true) :
    ∀ c ∈ sp, isSpacePy c = true := by
  unfold spAll at h
  rw [Bool.and_eq_true_iff] at h
  exact List.all_eq_true.mp h.2

theorem render_chars {nm : NameMatch} (h : nmOk nm = true) :
    ∀ c ∈ render nm, c.isAlpha = true ∨ isSpacePy c = true ∨ c = '.' := by
  unfold nmOk at h
  rw [Bool.and_eq_true_iff, Bool.and_eq_true_iff, Bool.and_eq_true_iff] at h
  obtain ⟨⟨⟨ht1, hini⟩, hne⟩, hall⟩ := h
  intro c hc
  unfold render at hc
  rw [List.append_assoc, List.mem_append] at hc
  cases hc with
  | inl h1 => exact Or.inl (titleTok_chars ht1 c h1)
  | inr h1 =>
    rw [List.mem_append] at h1
    cases h1 with
    | inl h2 =>
      cases hii : nm.ini with
      | none => rw [hii] at h2; cases h2
      | some pr =>
        obtain ⟨s, tok⟩ := pr
        rw [hii] at h2 hini
        have hini2 : (spAll s && isIniTok tok) = true := hini
        rw [Bool.and_eq_true_iff] at hini2
        have h3 : c ∈ s ++ tok := h2
        rw [List.mem_append] at h3
        cases h3 with
        | inl h4 => exact Or.inr (Or.inl (spAll_chars hini2.1 c h4))
        | inr h4 =>
          cases iniTok_chars hini2.2 c h4 with
          | inl h5 => exact Or.inl h5
          | inr h5 => exact Or.inr (Or.inr h5)
    | inr h2 =>
      unfold renderReps at h2
      rw [List.mem_flatten] at h2
      obtain ⟨l, hl, hcl⟩ := h2
      rw [List.mem_map] at hl
      obtain ⟨p, hp, hpl⟩ := hl
      have hrep : repOk p = true := List.all_eq_true.mp hall p hp
      unfold repOk at hrep
      rw [Bool.and_eq_true_iff] at hrep
      rw [← hpl] at hcl
      rw [List.mem_append] at hcl
      cases hcl with
      | inl h3 => exact Or.inr (Or.inl (spAll_chars hrep.1 c h3))
      | inr h3 => exact Or.inl (titleTok_chars hrep.2 c h3)

end ExtractNamesSimple

/-- C9: every character of every candidate produced by the pattern
strategy is a letter, a whitespace character, or a period; in particular no
digit or comma ever occurs in a candidate. -/
theorem C9_candidate_charset (text : String) (cand : String) (c : Char)
    (hc : cand ∈ ExtractNamesSimple.extract_potential_names text)
    (hch : c ∈ cand.data) :
    c.isAlpha = true ∨ isSpacePy c = true ∨ c = '.' := by
  obtain ⟨nm, hok, hdata⟩ := ExtractNamesSimple.extract_ok hc
  rw [hdata] at hch
  exact ExtractNamesSimple.render_chars hok c hch

theorem not_space_of_alpha {c : Char} (h : c.isAlpha = true) : isSpacePy c = false := by
  cases hs : isSpacePy c with
  | false => rfl
  | true =>
    exfalso
    have h2 : (c == ' ' || c == '\t' || c == '\n' || c == '\x0d' ||
        c == '\x0b' || c == '\x0c') = true := hs
    simp only [Bool.or_eq_true, beq_iff_eq] at h2
    rcases h2 with ((((h1 | h1) | h1) | h1) | h1) | h1 <;> subst h1 <;>
      exact absurd h (by decide)

theorem splitPyAux_nonspace :
    ∀ (w r acc : List Char), (∀ c ∈ w, isSpacePy c = false) →
      splitPyAux (w ++ r) acc = splitPyAux r (w.reverse ++ acc) := by
  intro w
  induction w with
  | nil => intro r acc _; simp
  | cons c w2 ih =>
    intro r acc hns
    have hc : isSpacePy c = false := hns c (by simp)
    have he : splitPyAux (c :: (w2 ++ r)) acc =
        (if isSpacePy c then
          (if acc.isEmpty then splitPyAux (w2 ++ r) []
           else acc.reverse :: splitPyAux (w2 ++ r) [])
         else splitPyAux (w2 ++ r) (c :: acc)) := rfl
    rw [List.cons_append, he, hc]
    simp only [Bool.false_eq_true, if_false]
    rw [ih r (c :: acc) (fun d hd => hns d (by simp [hd]))]
    simp

theorem splitPyAux_space_nil :
    ∀ (sp r : List Char), (∀ c ∈ sp, isSpacePy c = true) →
      splitPyAux (sp ++ r) [] = splitPyAux r [] := by
  intro sp
  induction sp with
  | nil => intro r _; simp
  | cons c sp2 ih =>
    intro r hsp
    have hc : isSpacePy c = true := hsp c (by simp)
    have he : splitPyAux (c :: (sp2 ++ r)) ([] : List Char) =
        (if isSpacePy c then
          (if (List.isEmpty []) then splitPyAux (sp2 ++ r) []
           else ([] : List Char).reverse :: splitPyAux (sp2 ++ r) [])
         else splitPyAux (sp2 ++ r) [c]) := rfl
    rw [List.cons_append, he, hc]
    simp only [List.isEmpty_nil, if_true]
    exact ih r (fun d hd => hsp d (by simp [hd]))

theorem splitPyAux_space_emit :
    ∀ (sp r acc : List Char), sp ≠ [] → (∀ c ∈ sp, isSpacePy c = true) → acc ≠ [] →
      splitPyAux (sp ++ r) acc = acc.reverse :: splitPyAux r [] := by
  intro sp r acc hne hsp hacc
  cases sp with
  | nil => exact absurd rfl hne
  | cons c sp2 =>
    have hc : isSpacePy c = true := hsp c (by simp)
    have he : splitPyAux (c :: (sp2 ++ r)) acc =
        (if isSpacePy c then
          (if acc.isEmpty then splitPyAux (sp2 ++ r) []
           else acc.reverse :: splitPyAux (sp2 ++ r) [])
         else splitPyAux (sp2 ++ r) (c :: acc)) := rfl
    rw [List.cons_append, he, hc]
    have hae : acc.isEmpty = false := by
      cases acc with
      | nil => exact absurd rfl hacc
      | cons a as => rfl
    rw [hae]
    simp only [Bool.false_eq_true, if_false, Bool.true_eq_false]
    rw [splitPyAux_space_nil sp2 r (fun d hd => hsp d (by simp [hd]))]
    simp

theorem splitPy_word :
    ∀ (w : List Char), w ≠ [] → (∀ c ∈ w, isSpacePy c = false) → splitPy w = [w] := by
  intro w hne hns
  unfold splitPy
  rw [show w = w ++ [] by simp, splitPyAux_nonspace w [] [] hns]
  unfold splitPyAux
  have : (w.reverse ++ []).isEmpty = false := by
    simp only [List.append_nil]
    cases hw : w.reverse with
    | nil => exact absurd (by simpa using hw) hne
    | cons a as => rfl
  rw [this]
  simp

namespace ExtractNamesSimple

theorem titleTok_ne_nil {t : List Char} (h : isTitleTok t = true) : t ≠ [] := by
  cases t with
  | nil => cases h
  | cons c rest => simp

theorem titleTok_nonspace {t : List Char} (h : isTitleTok t = true) :
    ∀ c ∈ t, isSpacePy c = false :=
  fun c hc => not_space_of_alpha (titleTok_chars h c hc)

theorem iniTok_ne_nil {tok : List Char} (h : isIniTok tok = true) : tok ≠ [] := by
  match tok with
  | [] => cases h
  | [c] => simp
  | [c, p] => simp
  | c :: p :: q :: r => simp

theorem iniTok_nonspace {tok : List Char} (h : isIniTok tok = true) :
    ∀ c ∈ tok, isSpacePy c = false := by
  intro c hc
  cases iniTok_chars h c hc with
  | inl h1 => exact not_space_of_alpha h1
  | inr h1 => rw [h1]; decide

theorem splitPy_word_chunks :
    ∀ (chunks : List (List Char × List Char)) (w : List Char),
      w ≠ [] → (∀ c ∈ w, isSpacePy c = false) →
      (∀ p ∈ chunks, repOk p = true) →
      splitPy (w ++ renderReps chunks) = w :: chunks.map Prod.snd := by
  intro chunks
  induction chunks with
  | nil =>
    intro w hw hns _
    show splitPy (w ++ ([] : List (List Char)).flatten) = [w]
    simp only [List.flatten_nil, List.append_nil]
    exact splitPy_word w hw hns
  | cons p ps ih =>
    obtain ⟨sp, tok⟩ := p
    intro w hw hns hall
    have hrep : repOk (sp, tok) = true := hall (sp, tok) (by simp)
    unfold repOk at hrep
    rw [Bool.and_eq_true_iff] at hrep
    obtain ⟨hsp, htok⟩ := hrep
    have hspne : sp ≠ [] := by
      unfold spAll at hsp
      rw [Bool.and_eq_true_iff] at hsp
      intro he
      rw [he] at hsp
      simpa using hsp.1
    have hspall : ∀ c ∈ sp, isSpacePy c = true := spAll_chars hsp
    have hre : renderReps ((sp, tok) :: ps) = (sp ++ tok) ++ renderReps ps := by
      unfold renderReps
      simp
    rw [hre]
    unfold splitPy
    rw [show w ++ (sp ++ tok ++ renderReps ps) = w ++ (sp ++ (tok ++ renderReps ps)) by
      simp [List.append_assoc]]
    rw [splitPyAux_nonspace w _ [] hns]
    rw [splitPyAux_space_emit sp _ _ hspne hspall (by
      simp only [List.append_nil]
      intro hc
      exact hw (by simpa using hc))]
    rw [List.append_nil, List.reverse_reverse]
    have hih := ih tok (titleTok_ne_nil htok) (titleTok_nonspace htok)
      (fun q hq => hall q (by simp [hq]))
    unfold splitPy at hih
    rw [hih]
    simp

theorem spAll_ne_nil {sp : List Char} (h : spAll sp = true) : sp ≠ [] := by
  unfold spAll at h
  rw [Bool.and_eq_true_iff] at h
  intro he
  rw [he] at h
  simpa using h.1

theorem splitPy_render {nm : NameMatch} (h : nmOk nm = true) :
    splitPy (render nm) = tokList nm := by
  unfold nmOk at h
  rw [Bool.and_eq_true_iff, Bool.and_eq_true_iff, Bool.and_eq_true_iff] at h
  obtain ⟨⟨⟨ht1, hini⟩, hne⟩, hall⟩ := h
  have hallr : ∀ p ∈ nm.reps, repOk p = true := List.all_eq_true.mp hall
  cases hii : nm.ini with
  | none =>
    have hr : render nm = nm.t1 ++ renderReps nm.reps := by
      unfold render; rw [hii]; simp
    have ht : tokList nm = nm.t1 :: nm.reps.map Prod.snd := by
      unfold tokList; rw [hii]; simp
    rw [hr, ht]
    exact splitPy_word_chunks nm.reps nm.t1 (titleTok_ne_nil ht1)
      (titleTok_nonspace ht1) hallr
  | some pr =>
    obtain ⟨s, tok⟩ := pr
    rw [hii] at hini
    have hini2 : (spAll s && isIniTok tok) = true := hini
    rw [Bool.and_eq_true_iff] at hini2
    obtain ⟨hs, htk⟩ := hini2
    have hr : render nm = nm.t1 ++ (s ++ (tok ++ renderReps nm.reps)) := by
      unfold render; rw [hii]; simp [List.append_assoc]
    have ht : tokList nm = nm.t1 :: tok :: nm.reps.map Prod.snd := by
      unfold tokList; rw [hii]; simp
    rw [hr, ht]
    unfold splitPy
    rw [splitPyAux_nonspace nm.t1 _ [] (titleTok_nonspace ht1)]
    rw [splitPyAux_space_emit s _ _ (spAll_ne_nil hs) (spAll_chars hs) (by
      simp only [List.append_nil]
      intro hcon
      exact titleTok_ne_nil ht1 (by simpa using hcon))]
    rw [List.append_nil, List.reverse_reverse]
    have hih := splitPy_word_chunks nm.reps tok (iniTok_ne_nil htk)
      (iniTok_nonspace htk) hallr
    unfold splitPy at hih
    rw [hih]

theorem titleTok_not_ini {t : List Char} (h : isTitleTok t = true) :
    isIniTok t = false := by
  match t with
  | [] => cases h
  | [c] =>
    exfalso
    have h2 : (c.isUpper && !(List.isEmpty ([] : List Char)) &&
        List.all [] Char.isLower) = true := h
    simp at h2
  | [c, d] =>
    have h2 : (c.isUpper && !(List.isEmpty [d]) && List.all [d] Char.isLower) = true := h
    rw [Bool.and_eq_true_iff, Bool.and_eq_true_iff] at h2
    have hd : d.isLower = true := by simpa using h2.2
    show (c.isUpper && (d == '.')) = false
    cases hdd : d == '.' with
    | false => simp
    | true =>
      exfalso
      have hde : d = '.' := by simpa using hdd
      rw [hde] at hd
      exact absurd hd (by decide)
  | c :: d :: e :: r => rfl

end ExtractNamesSimple

/-- C3 amended: every candidate of the pattern strategy splits into at
least two whitespace-separated tokens, each token is a title-case word or
(at most once) a single-letter initial with optional period; there is no
upper bound of four tokens, since the trailing repetition of the regex is
unbounded. -/
theorem C3_amended_candidate_shape (text : String) (cand : String)
    (hc : cand ∈ ExtractNamesSimple.extract_potential_names text) :
    2 ≤ (splitPy cand.data).length ∧
      (∀ t ∈ splitPy cand.data,
        ExtractNamesSimple.isTitleTok t = true ∨ ExtractNamesSimple.isIniTok t = true) ∧
      (splitPy cand.data).countP (fun t => ExtractNamesSimple.isIniTok t) ≤ 1 := by
  obtain ⟨nm, hok, hdata⟩ := ExtractNamesSimple.extract_ok hc
  rw [hdata, ExtractNamesSimple.splitPy_render hok]
  unfold ExtractNamesSimple.nmOk at hok
  rw [Bool.and_eq_true_iff, Bool.and_eq_true_iff, Bool.and_eq_true_iff] at hok
  obtain ⟨⟨⟨ht1, hini⟩, hne⟩, hall⟩ := hok
  have hallr : ∀ p ∈ nm.reps, ExtractNamesSimple.repOk p = true := List.all_eq_true.mp hall
  have hrepsne : nm.reps ≠ [] := by
    intro he
    rw [he] at hne
    simp at hne
  have hmaptitle : ∀ t ∈ nm.reps.map Prod.snd, ExtractNamesSimple.isTitleTok t = true := by
    intro t ht
    rw [List.mem_map] at ht
    obtain ⟨q, hq, hqt⟩ := ht
    have hr := hallr q hq
    unfold ExtractNamesSimple.repOk at hr
    rw [Bool.and_eq_true_iff] at hr
    rw [← hqt]
    exact hr.2
  have h0 : (nm.reps.map Prod.snd).countP
      (fun t => ExtractNamesSimple.isIniTok t) = 0 := by
    rw [List.countP_eq_zero]
    intro a ha
    simp [ExtractNamesSimple.titleTok_not_ini (hmaptitle a ha)]
  cases hii : nm.ini with
  | none =>
    have ht : ExtractNamesSimple.tokList nm = nm.t1 :: nm.reps.map Prod.snd := by
      unfold ExtractNamesSimple.tokList; rw [hii]; simp
    rw [ht]
    refine ⟨?_, ?_, ?_⟩
    · simp only [List.length_cons, List.length_map]
      have := List.length_pos.mpr hrepsne
      omega
    · intro t htt
      cases List.mem_cons.mp htt with
      | inl he => exact Or.inl (he ▸ ht1)
      | inr hm => exact Or.inl (hmaptitle t hm)
    · rw [List.countP_cons, h0]
      simp [ExtractNamesSimple.titleTok_not_ini ht1]
  | some pr =>
    obtain ⟨s, tok⟩ := pr
    rw [hii] at hini
    have hini2 : (ExtractNamesSimple.spAll s && ExtractNamesSimple.isIniTok tok) = true := hini
    rw [Bool.and_eq_true_iff] at hini2
    have ht : ExtractNamesSimple.tokList nm = nm.t1 :: tok :: nm.reps.map Prod.snd := by
      unfold ExtractNamesSimple.tokList; rw [hii]; simp
    rw [ht]
    refine ⟨?_, ?_, ?_⟩
    · simp
    · intro t htt
      cases List.mem_cons.mp htt with
      | inl he => exact Or.inl (he ▸ ht1)
      | inr hm =>
        cases List.mem_cons.mp hm with
        | inl he2 => exact Or.inr (he2 ▸ hini2.2)
        | inr hm2 => exact Or.inl (hmaptitle t hm2)
    · rw [List.countP_cons, List.countP_cons, h0]
      simp only [Nat.zero_add]
      have hnt := ExtractNamesSimple.titleTok_not_ini ht1
      by_cases hit : ExtractNamesSimple.isIniTok tok = true
      · simp [hit, hnt]
      · simp [Bool.eq_false_iff.mpr hit, hnt]

/-- C3 counterexample: the claim says no candidate has more than 4 tokens,
but the regex repetition `(?:\s+[A-Z][a-z]+)+` is unbounded, so a run of
five title-case words is returned as a single five-token candidate. -/
theorem C3_counterexample :
    ExtractNamesSimple.extract_potential_names "Aa Bb Cc Dd Ee" =
        ["Aa Bb Cc Dd Ee"] ∧
      4 < (splitPy ("Aa Bb Cc Dd Ee" : String).data).length := by
  constructor <;> decide

/-- C3 witness: the amended shape theorem applied to the scenario-A block
and its candidate "Jane A. Smith". -/
theorem C3_amended_candidate_shape_witness :
    ("Jane A. Smith" ∈ ExtractNamesSimple.extract_potential_names
        "Dr. Jane A. Smith visited the White House.") ∧
      (2 ≤ (splitPy ("Jane A. Smith" : String).data).length ∧
        (∀ t ∈ splitPy ("Jane A. Smith" : String).data,
          ExtractNamesSimple.isTitleTok t = true ∨
            ExtractNamesSimple.isIniTok t = true) ∧
        (splitPy ("Jane A. Smith" : String).data).countP
          (fun t => ExtractNamesSimple.isIniTok t) ≤ 1) :=
  ⟨by decide,
    C3_amended_candidate_shape "Dr. Jane A. Smith visited the White House."
      "Jane A. Smith" (by decide)⟩

/-- C9 witness: the character-class theorem applied to the scenario-A block,
its candidate "Jane A. Smith" and the character J. -/
theorem C9_candidate_charset_witness :
    ("Jane A. Smith" ∈ ExtractNamesSimple.extract_potential_names
        "Dr. Jane A. Smith visited the White House.") ∧
      ('J' ∈ ("Jane A. Smith" : String).data) ∧
      (Char.isAlpha 'J' = true ∨ isSpacePy 'J' = true ∨ 'J' = '.') :=
  ⟨by decide, by decide,
    C9_candidate_charset "Dr. Jane A. Smith visited the White House."
      "Jane A. Smith" 'J' (by decide) (by decide)⟩
